import Mathlib

/-!
# circ_queue: a fixed-capacity circular queue of opaque fixed-size elements

A shallow embedding of `src/circ_queue.c` and `src/circ_queue.h`.

* `size_t` values are natural numbers; every arithmetic operation the C code
  performs on them is reduced modulo `2 ^ w`, where `w` is the width of
  `size_t` on the platform (the first argument of every operation).
* The data buffer is the list of its bytes; its length is the number of bytes
  that were allocated.  A pointer into the buffer is the byte offset from
  `queue->data`; the null pointer is `none`.
* `memcpy` outside the bounds of either object is undefined behaviour: the
  operation then has no result (`none`).
-/

namespace CircQueue

/-- A byte.  Bytes are only ever copied, never inspected, so their range plays
no part in the model. -/
abbrev uint8_t := Nat

/-- Addition of two `size_t` values. -/
def size_add (w a b : Nat) : Nat := (a + b) % 2 ^ w

/-- Subtraction of two `size_t` values (wraps below zero). -/
def size_sub (w a b : Nat) : Nat := (a + (2 ^ w - b % 2 ^ w)) % 2 ^ w

/-- Multiplication of two `size_t` values. -/
def size_mul (w a b : Nat) : Nat := (a * b) % 2 ^ w

/-- The queue structure `circ_queue_mutable_t` (same layout as `circ_queue_t`). -/
structure circ_queue where
  /-- index of the first element in the queue -/
  front : Nat
  /-- index of the element past the last element in the queue -/
  back : Nat
  /-- used by the for_each loop -/
  iterator : Nat
  /-- the number of items contained in the queue -/
  length : Nat
  /-- the maximum number of elements the queue can hold -/
  capacity : Nat
  /-- the size of an element in bytes -/
  element_size : Nat
  /-- the bytes of the buffer that holds the queue elements -/
  data : List uint8_t
deriving DecidableEq, Repr

/-- The bytes `dest` holds after `bytes` were written at offset `off`. -/
def store (dest : List uint8_t) (off : Nat) (bytes : List uint8_t) : List uint8_t :=
  dest.take off ++ bytes ++ dest.drop (off + bytes.length)

/-- The `count` bytes of `src` that start at offset `off`. -/
def load (src : List uint8_t) (off count : Nat) : List uint8_t :=
  (src.drop off).take count

/-- `CIRC_QUEUE_MEMCPY(dest + d, src + s, count)`: the new contents of the
destination object, or `none` when the copy would leave either object. -/
def memcpy (dest : List uint8_t) (d : Nat) (src : List uint8_t) (s count : Nat) :
    Option (List uint8_t) :=
  if d + count ≤ dest.length ∧ s + count ≤ src.length then
    some (store dest d (load src s count))
  else none

/-- `circ_queue_is_full`: `queue->length == queue->capacity` as a C `int`. -/
def circ_queue_is_full (queue : circ_queue) : Int :=
  if queue.length = queue.capacity then 1 else 0

/-- `circ_queue_is_empty`: `queue->length == 0` as a C `int`. -/
def circ_queue_is_empty (queue : circ_queue) : Int :=
  if queue.length = 0 then 1 else 0

/-- `circ_queue_pop(queue, element)`.  `element` is `none` for `NULL`, else
the bytes of the object it points to.  The result is the return value, the
queue afterwards and the object `element` points to afterwards. -/
def circ_queue_pop (w : Nat) (queue : circ_queue) (element : Option (List uint8_t)) :
    Option (Int × circ_queue × Option (List uint8_t)) :=
  if circ_queue_is_empty queue ≠ 0 then
    some (-1, queue, element)
  else
    let copied : Option (Option (List uint8_t)) :=
      match element with
      | none => some none
      | some buf =>
        (memcpy buf 0 queue.data (size_mul w queue.element_size queue.front)
          queue.element_size).map some
    match copied with
    | none => none
    | some element1 =>
      let queue1 := { queue with front := size_add w queue.front 1 % queue.capacity }
      let queue2 := { queue1 with length := size_sub w queue1.length 1 }
      some (0, queue2, element1)

/-- The part of `circ_queue_push` after the fullness test (lines 89 to 92):
copy the element into slot `back`, advance `back`, increment `length`, return 0. -/
def circ_queue_push_copy (w : Nat) (queue : circ_queue) (element : List uint8_t) :
    Option (Int × circ_queue) :=
  match memcpy queue.data (size_mul w queue.element_size queue.back) element 0
      queue.element_size with
  | none => none
  | some data1 =>
    let queue1 := { queue with data := data1 }
    let queue2 := { queue1 with back := size_add w queue1.back 1 % queue1.capacity }
    let queue3 := { queue2 with length := size_add w queue2.length 1 }
    some (0, queue3)

/-- `circ_queue_push(queue, element, full_remove_oldest)`.  `element` is the
object the pointer refers to.  The result is the return value and the queue
afterwards. -/
def circ_queue_push (w : Nat) (queue : circ_queue) (element : List uint8_t)
    (full_remove_oldest : Int) : Option (Int × circ_queue) :=
  if circ_queue_is_full queue ≠ 0 then
    if full_remove_oldest = 0 then
      some (-1, queue)
    else
      match circ_queue_pop w queue none with
      | none => none
      | some (_, queue1, _) => circ_queue_push_copy w queue1 element
  else
    circ_queue_push_copy w queue element

/-- `circ_queue_front(queue)`: the offset of the first element, `none` for `NULL`. -/
def circ_queue_front (w : Nat) (queue : circ_queue) : Option Nat :=
  if circ_queue_is_empty queue ≠ 0 then none
  else some (size_mul w queue.element_size queue.front)

/-- `circ_queue_back(queue)`: the offset of the last element, `none` for `NULL`. -/
def circ_queue_back (w : Nat) (queue : circ_queue) : Option Nat :=
  if circ_queue_is_empty queue ≠ 0 then none
  else
    some (size_mul w queue.element_size
      (size_sub w (size_add w queue.front queue.length) 1 % queue.capacity))

/-- The element a pointer returned by `circ_queue_front` or `circ_queue_back`
views: the `element_size` bytes of the buffer at that offset. -/
def view (queue : circ_queue) (p : Nat) : List uint8_t :=
  load queue.data p queue.element_size

/-- The size of the queue structure: six `size_t` fields and one pointer of
the same width. -/
def sizeof_circ_queue_t (w : Nat) : Nat := 7 * (w / 8)

/-- A call the code makes to the allocator. -/
inductive heap_call where
  /-- `CIRC_QUEUE_MALLOC(size)` -/
  | malloc (size : Nat)
  /-- `CIRC_QUEUE_FREE(ptr)` -/
  | free
deriving DecidableEq, Repr

/-- `circ_queue_create(capacity, element_size)`.  `malloc_queue` and
`malloc_data` are the allocator's answers to the first and to the second
request, as functions of the requested size: `none` for `NULL`, else the
bytes of the fresh block.  The result is the returned queue (`none` for
`NULL`) and the calls made to the allocator, in order. -/
def circ_queue_create (w : Nat) (malloc_queue malloc_data : Nat → Option (List uint8_t))
    (capacity element_size : Nat) : Option circ_queue × List heap_call :=
  if capacity = 0 ∨ element_size = 0 then
    (none, [])
  else
    match malloc_queue (sizeof_circ_queue_t w) with
    | none => (none, [heap_call.malloc (sizeof_circ_queue_t w)])
    | some _ =>
      let request := size_mul w capacity element_size
      match malloc_data request with
      | none =>
        (none, [heap_call.malloc (sizeof_circ_queue_t w), heap_call.malloc request,
          heap_call.free])
      | some data =>
        (some { element_size := element_size, capacity := capacity, length := 0,
                iterator := 0, front := 0, back := 0, data := data },
          [heap_call.malloc (sizeof_circ_queue_t w), heap_call.malloc request])

/-! ## Client loops (as in `test/test1.cc`) -/

/-- Push the elements of `xs` in order, each with the same flag; the result
is the list of return values and the final queue. -/
def push_all (w : Nat) (full_remove_oldest : Int) :
    circ_queue → List (List uint8_t) → Option (List Int × circ_queue)
  | queue, [] => some ([], queue)
  | queue, x :: xs =>
    match circ_queue_push w queue x full_remove_oldest with
    | none => none
    | some (r, queue1) =>
      match push_all w full_remove_oldest queue1 xs with
      | none => none
      | some (rs, queue2) => some (r :: rs, queue2)

/-- Call `circ_queue_pop` `n` times, each time with an output object that
holds `out` before the call; the result is the list of (return value, output
object after the call) and the final queue. -/
def pop_n (w : Nat) (out : List uint8_t) :
    circ_queue → Nat → Option (List (Int × List uint8_t) × circ_queue)
  | queue, 0 => some ([], queue)
  | queue, n + 1 =>
    match circ_queue_pop w queue (some out) with
    | some (r, queue1, some out1) =>
      match pop_n w out queue1 n with
      | none => none
      | some (rs, queue2) => some ((r, out1) :: rs, queue2)
    | _ => none

/-! ## Well-formed queues and their logical contents -/

/-- A valid queue over a `w`-bit `size_t`: the data model of the queue.
Capacity and element size are non-zero, the indices are in range, `back` is
`length` slots after `front` (modulo the capacity), and the data buffer is an
allocated object of `capacity * element_size` bytes (so that size is a
`size_t` value).  `valid_iff_invariant` restates the relation between the
indices as `length = (back - front) mod capacity` when not full and
`front = back` when full. -/
def valid (w : Nat) (q : circ_queue) : Prop :=
  0 < q.capacity ∧ 0 < q.element_size ∧
  q.front < q.capacity ∧ q.back < q.capacity ∧ q.length ≤ q.capacity ∧
  q.back = (q.front + q.length) % q.capacity ∧
  q.data.length = q.capacity * q.element_size ∧
  q.capacity * q.element_size < 2 ^ w

instance (w : Nat) (q : circ_queue) : Decidable (valid w q) := by
  unfold valid; infer_instance

/-- The element stored in slot `i` of the buffer. -/
def slot (q : circ_queue) (i : Nat) : List uint8_t :=
  load q.data (q.element_size * i) q.element_size

/-- The logical contents of the queue, oldest first: the slots
`front, front + 1, ...` (modulo the capacity), `length` of them. -/
def contents (q : circ_queue) : List (List uint8_t) :=
  (List.range q.length).map (fun i => slot q ((q.front + i) % q.capacity))

/-- The queue a successful pop leaves, written without the reductions modulo
`2 ^ w` (a device of the proofs: `pop_null` and `pop_some` show that the code
produces it on every valid non-empty queue). -/
def after_pop (q : circ_queue) : circ_queue :=
  { q with front := (q.front + 1) % q.capacity, length := q.length - 1 }

/-- The queue a successful copy of `bytes` into slot `back` leaves, written
without the reductions modulo `2 ^ w` (a device of the proofs: `push_copy_ok`
shows that the code produces it on every valid queue that is not full). -/
def after_push (q : circ_queue) (bytes : List uint8_t) : circ_queue :=
  { q with data := store q.data (q.element_size * q.back) bytes,
           back := (q.back + 1) % q.capacity,
           length := q.length + 1 }

/-! ## Iteration (`circ_queue_for_each` in `circ_queue.h`) -/

/-- The loop of the macro `circ_queue_for_each`, from the test of its condition
on.  While `loop_idx < queue->length` the body runs with `element` set to
`queue->data + queue->iterator * queue->element_size` (a pointer into the
buffer, never `NULL`, so the second operand of `&&` is true); then `loop_idx`
is incremented and `iterator` becomes `(iterator + 1) % capacity`.  The body
only looks at `loop_idx` and `element`.  The result is the queue when the loop
ends and the pairs `(loop_idx, element)` the body ran with, in order; `none`
when `fuel` iterations were not enough. -/
def for_each_loop (w : Nat) : Nat → circ_queue → Nat → Option (circ_queue × List (Nat × Nat))
  | 0, _, _ => none
  | fuel + 1, queue, loop_idx =>
    if loop_idx < queue.length then
      let element := size_mul w queue.iterator queue.element_size
      let queue1 := { queue with iterator := size_add w queue.iterator 1 % queue.capacity }
      match for_each_loop w fuel queue1 (size_add w loop_idx 1) with
      | none => none
      | some (queue2, visited) => some (queue2, (loop_idx, element) :: visited)
    else
      some (queue, [])

/-- The macro `circ_queue_for_each(circ_queue, loop_idx, element)`: `iterator`
is set to `front`, `loop_idx` to 0, then the loop runs. -/
def circ_queue_for_each (w fuel : Nat) (queue : circ_queue) :
    Option (circ_queue × List (Nat × Nat)) :=
  for_each_loop w fuel { queue with iterator := queue.front } 0

/-! ## Sequences of calls -/

/-- A call a client makes on a queue. -/
inductive queue_call where
  /-- `circ_queue_push(queue, element, full_remove_oldest)` -/
  | push (element : List uint8_t) (full_remove_oldest : Int)
  /-- `circ_queue_pop(queue, element)` -/
  | pop (element : Option (List uint8_t))
deriving DecidableEq, Repr

/-- Run the calls in order from `queue`.  `written` collects the offsets into
the data buffer at which a push copied an element: a push that returns 0
copied to `data + element_size * back` (line 89; the pop of line 85 leaves
`back` as it is).  A call returns -1 or 0 and the run goes on; the run has no
result when a call has none. -/
def run (w : Nat) : circ_queue → List Nat → List queue_call → Option (circ_queue × List Nat)
  | queue, written, [] => some (queue, written)
  | queue, written, queue_call.push element flag :: calls =>
    match circ_queue_push w queue element flag with
    | none => none
    | some (r, queue1) =>
      run w queue1
        (if r = 0 then size_mul w queue.element_size queue.back :: written else written) calls
  | queue, written, queue_call.pop element :: calls =>
    match circ_queue_pop w queue element with
    | none => none
    | some (_, queue1, _) => run w queue1 written calls

/-- The offset `circ_queue_pop` reads from when it copies an element out
(line 110): `data + element_size * front`, when the queue is not empty and an
output object is supplied. -/
def pop_source (w : Nat) (queue : circ_queue) (element : Option (List uint8_t)) : Option Nat :=
  if circ_queue_is_empty queue ≠ 0 then none
  else
    match element with
    | none => none
    | some _ => some (size_mul w queue.element_size queue.front)

/-- An offset `p` is the start of a slot of the modular window
`[front, front + length)` of the queue. -/
def in_window (q : circ_queue) (p : Nat) : Prop :=
  ∃ i, i < q.length ∧ p = q.element_size * ((q.front + i) % q.capacity)

/-- What every queue that a run of calls reaches from `circ_queue_create`
satisfies (`sound_create`, `sound_run`): the fields are `size_t` values, the
indices are in range, `back` is `length` slots after `front`, the next slot to
be written starts inside the buffer and every slot of the window lies inside
the buffer. -/
def sound (w : Nat) (q : circ_queue) : Prop :=
  0 < q.capacity ∧ 0 < q.element_size ∧ q.capacity < 2 ^ w ∧
  q.front < q.capacity ∧ q.back < q.capacity ∧ q.length ≤ q.capacity ∧
  q.back = (q.front + q.length) % q.capacity ∧
  q.data.length < 2 ^ w ∧ q.element_size * q.back ≤ q.data.length ∧
  ∀ i, i < q.length →
    q.element_size * ((q.front + i) % q.capacity) + q.element_size ≤ q.data.length

/-- Every slot of the window of `q` starts at an offset listed in `written`. -/
def window_written (q : circ_queue) (written : List Nat) : Prop :=
  ∀ i, i < q.length → q.element_size * ((q.front + i) % q.capacity) ∈ written

/-- The overwrite path as the specification words it: a pop with a discarded
output, then an insert without the overwrite flag. -/
def pop_then_push (w : Nat) (queue : circ_queue) (element : List uint8_t) :
    Option (Int × Int × circ_queue) :=
  match circ_queue_pop w queue none with
  | none => none
  | some (r1, queue1, _) =>
    match circ_queue_push w queue1 element 0 with
    | none => none
    | some (r2, queue2) => some (r1, r2, queue2)

/-! ## Sample queues -/

/-- A queue of capacity 3 with two-byte elements, empty, with `front` at the
last slot, so that the second push wraps around. -/
def wrapping_queue : circ_queue :=
  { front := 2, back := 2, iterator := 0, length := 0, capacity := 3, element_size := 2,
    data := [9, 9, 9, 9, 9, 9] }

/-- A full queue of capacity 3 with two-byte elements whose oldest element is
in the middle slot. -/
def full_queue : circ_queue :=
  { front := 1, back := 1, iterator := 0, length := 3, capacity := 3, element_size := 2,
    data := [5, 6, 1, 2, 3, 4] }

/-- A full queue of capacity 1 with two-byte elements. -/
def single_queue : circ_queue :=
  { front := 0, back := 0, iterator := 0, length := 1, capacity := 1, element_size := 2,
    data := [5, 6] }

/-- A queue of 3 GiB of one-byte elements on a platform with a 32-bit `size_t`
(capacity `3 * 2 ^ 30`): the oldest element is in the last slot, `2 ^ 30 + 1`
elements are stored, every byte of the buffer is 0. -/
def huge_queue : circ_queue :=
  { front := 3221225471, back := 1073741824, iterator := 0, length := 1073741825,
    capacity := 3221225472, element_size := 1, data := List.replicate 3221225472 0 }

/-- A full queue of 3 GiB of one-byte elements on a platform with a 32-bit
`size_t`: the oldest element is in slot `2 ^ 31`, every byte of the buffer is 0. -/
def huge_full_queue : circ_queue :=
  { front := 2147483648, back := 2147483648, iterator := 0, length := 3221225472,
    capacity := 3221225472, element_size := 1, data := List.replicate 3221225472 0 }

/-- As many new values as `huge_full_queue` has slots: `[1]` every time but
the last, which is `[9]`. -/
def huge_values : List (List uint8_t) :=
  List.replicate 3221225471 [1] ++ [[9]]

/-- An allocator that satisfies every request with a block of zero bytes. -/
def zero_heap (n : Nat) : Option (List uint8_t) := some (List.replicate n 0)

/-- The queue `circ_queue_create(5, 4)` returns (test `overflow_on_push_full`),
when the allocator hands out zeroed blocks. -/
def five_ints : circ_queue :=
  { front := 0, back := 0, iterator := 0, length := 0, capacity := 5, element_size := 4,
    data := List.replicate 20 0 }

/-- The values 55 to 59 as four-byte little-endian integers. -/
def five_values : List (List uint8_t) :=
  [[55, 0, 0, 0], [56, 0, 0, 0], [57, 0, 0, 0], [58, 0, 0, 0], [59, 0, 0, 0]]

/-- A run on the queue of `circ_queue_create(5, 4)`: five pushes fill it, a
sixth is refused, two pops, two more pushes wrap `back` past the capacity, and
a push with the flag set evicts the oldest element. -/
def sample_calls : List queue_call :=
  [queue_call.push [1, 0, 0, 0] 0, queue_call.push [2, 0, 0, 0] 0,
   queue_call.push [3, 0, 0, 0] 0, queue_call.push [4, 0, 0, 0] 0,
   queue_call.push [5, 0, 0, 0] 0, queue_call.push [6, 0, 0, 0] 0,
   queue_call.pop none, queue_call.pop (some [0, 0, 0, 0]),
   queue_call.push [7, 0, 0, 0] 0, queue_call.push [8, 0, 0, 0] 0,
   queue_call.push [9, 0, 0, 0] 1]

/-- The queue `sample_calls` leads to. -/
def sample_queue : circ_queue :=
  { front := 3, back := 3, iterator := 0, length := 5, capacity := 5, element_size := 4,
    data := [7, 0, 0, 0, 8, 0, 0, 0, 9, 0, 0, 0, 4, 0, 0, 0, 5, 0, 0, 0] }

/-! ## Arithmetic of `size_t` -/

theorem size_add_of_lt {w a b : Nat} (h : a + b < 2 ^ w) : size_add w a b = a + b :=
  Nat.mod_eq_of_lt h

theorem size_mul_of_lt {w a b : Nat} (h : a * b < 2 ^ w) : size_mul w a b = a * b :=
  Nat.mod_eq_of_lt h

theorem size_sub_one {w a : Nat} (h0 : 0 < a) (h : a < 2 ^ w) : size_sub w a 1 = a - 1 := by
  unfold size_sub
  have h1 : 1 % 2 ^ w = 1 := Nat.mod_eq_of_lt (by omega)
  rw [h1]
  have h2 : a + (2 ^ w - 1) = (a - 1) + 2 ^ w := by omega
  rw [h2, Nat.add_mod_right]
  exact Nat.mod_eq_of_lt (by omega)

theorem mod_wrap {c a : Nat} (h : a < 2 * c) : a % c = if a < c then a else a - c := by
  split
  · next h1 => exact Nat.mod_eq_of_lt h1
  · next h1 =>
    rw [Nat.mod_eq_sub_mod (by omega)]
    exact Nat.mod_eq_of_lt (by omega)

/-- The relation between the indices that `valid` states, `back` being `length`
slots after `front`, is the invariant of the data model: `length` is
`(back - front) mod capacity` when the queue is not full, and `front = back`
when it is full. -/
theorem index_relation_iff {c f b l : Nat} (hf : f < c) (hb : b < c) (hl : l ≤ c) :
    b = (f + l) % c ↔
      ((l < c → (l : Int) = ((b : Int) - (f : Int)) % (c : Int)) ∧ (l = c → f = b)) := by
  rw [mod_wrap (by omega)]
  have hc : (0 : Int) < c := by omega
  constructor
  · intro h
    refine ⟨fun hlt => ?_, fun he => ?_⟩
    · split at h
      · have : (b : Int) - f = l := by omega
        rw [this, Int.emod_eq_of_lt (by omega) (by omega)]
      · have : (b : Int) - f = l - c := by omega
        rw [this, Int.sub_emod, Int.emod_self, Int.sub_zero, Int.emod_emod,
          Int.emod_eq_of_lt (by omega) (by omega)]
    · split at h <;> omega
  · rintro ⟨h1, h2⟩
    rcases Nat.lt_or_ge l c with hlt | hge
    · have h := h1 hlt
      by_cases hbf : f ≤ b
      · rw [Int.emod_eq_of_lt (by omega) (by omega)] at h
        split <;> omega
      · have e : ((b : Int) - f) % c = b - f + c := by
          rw [← Int.add_emod_self, Int.emod_eq_of_lt (by omega) (by omega)]
        rw [e] at h
        split <;> omega
    · have := h2 (by omega)
      split <;> omega

theorem valid_iff_invariant (w : Nat) (q : circ_queue) :
    valid w q ↔
      (0 < q.capacity ∧ 0 < q.element_size ∧
        q.front < q.capacity ∧ q.back < q.capacity ∧ q.length ≤ q.capacity ∧
        ((q.length < q.capacity →
            (q.length : Int) = ((q.back : Int) - (q.front : Int)) % (q.capacity : Int)) ∧
          (q.length = q.capacity → q.front = q.back)) ∧
        q.data.length = q.capacity * q.element_size ∧
        q.capacity * q.element_size < 2 ^ w) := by
  unfold valid
  constructor
  · rintro ⟨h1, h2, h3, h4, h5, h6, h7, h8⟩
    exact ⟨h1, h2, h3, h4, h5, (index_relation_iff h3 h4 h5).1 h6, h7, h8⟩
  · rintro ⟨h1, h2, h3, h4, h5, h6, h7, h8⟩
    exact ⟨h1, h2, h3, h4, h5, (index_relation_iff h3 h4 h5).2 h6, h7, h8⟩

/-! ## Bytes -/

theorem length_load (src : List uint8_t) (off n : Nat) (h : off + n ≤ src.length) :
    (load src off n).length = n := by
  simp [load]; omega

theorem load_zero (src : List uint8_t) (n : Nat) : load src 0 n = src.take n := by
  simp [load]

theorem length_store (dest : List uint8_t) (off : Nat) (bytes : List uint8_t)
    (h : off + bytes.length ≤ dest.length) : (store dest off bytes).length = dest.length := by
  simp [store]; omega

theorem store_zero (buf bytes : List uint8_t) (h : buf.length = bytes.length) :
    store buf 0 bytes = bytes := by
  simp [store, h]

theorem load_store_same (dest : List uint8_t) (off : Nat) (bytes : List uint8_t)
    (h : off + bytes.length ≤ dest.length) :
    load (store dest off bytes) off bytes.length = bytes := by
  unfold load store
  have h1 : (List.take off dest).length = off := by simp; omega
  rw [List.append_assoc, List.drop_append_of_le_length (by omega)]
  rw [List.drop_of_length_le (by omega)]
  simp

theorem load_store_disjoint (dest : List uint8_t) (off : Nat) (bytes : List uint8_t)
    (p n : Nat) (h : off + bytes.length ≤ dest.length)
    (hd : p + n ≤ off ∨ off + bytes.length ≤ p) :
    load (store dest off bytes) p n = load dest p n := by
  unfold load store
  apply List.ext_getElem?
  intro i
  simp only [List.getElem?_take, List.getElem?_drop, List.getElem?_append, List.length_take,
    List.length_append]
  have hm : min off dest.length = off := by omega
  rw [hm]
  by_cases hi : i < n
  · simp only [hi, if_true]
    rcases hd with hd | hd
    · have h1 : p + i < off := by omega
      have h2 : p + i < off + bytes.length := by omega
      simp only [h1, h2, if_true]
    · have h1 : ¬ p + i < off := by omega
      have h2 : ¬ p + i < off + bytes.length := by omega
      simp only [h2, if_false]
      congr 1
      omega
  · simp only [hi, if_false]

/-! ## Valid queues: the offsets stay inside the buffer -/

theorem slot_bound {c e i : Nat} (hi : i < c) : e * i + e ≤ c * e := by
  have h : e * (i + 1) ≤ e * c := Nat.mul_le_mul_left e hi
  rw [Nat.mul_comm c e]
  rw [Nat.mul_add, Nat.mul_one] at h
  exact h

theorem slot_disjoint {e i j : Nat} (hij : i ≠ j) : e * i + e ≤ e * j ∨ e * j + e ≤ e * i := by
  rcases Nat.lt_or_gt_of_ne hij with h | h
  · left
    have := Nat.mul_le_mul_left e (Nat.succ_le_of_lt h)
    rw [Nat.mul_succ] at this
    exact this
  · right
    have := Nat.mul_le_mul_left e (Nat.succ_le_of_lt h)
    rw [Nat.mul_succ] at this
    exact this

theorem valid_capacity_lt {w : Nat} {q : circ_queue} (h : valid w q) : q.capacity < 2 ^ w := by
  obtain ⟨hc, he, -, -, -, -, -, hs⟩ := h
  have : q.capacity * 1 ≤ q.capacity * q.element_size := Nat.mul_le_mul_left _ he
  omega

theorem valid_offset {w : Nat} {q : circ_queue} (h : valid w q) {i : Nat}
    (hi : i < q.capacity) :
    size_mul w q.element_size i = q.element_size * i ∧
      q.element_size * i + q.element_size ≤ q.data.length := by
  have hb := slot_bound (e := q.element_size) hi
  obtain ⟨hc, he, -, -, -, -, hd, hs⟩ := h
  constructor
  · apply size_mul_of_lt; omega
  · omega

/-! ## What one call does on a valid queue -/

theorem is_empty_ne_zero (q : circ_queue) : circ_queue_is_empty q ≠ 0 ↔ q.length = 0 := by
  unfold circ_queue_is_empty
  split <;> simp_all

theorem is_full_ne_zero (q : circ_queue) : circ_queue_is_full q ≠ 0 ↔ q.length = q.capacity := by
  unfold circ_queue_is_full
  split <;> simp_all

theorem pop_empty (w : Nat) (q : circ_queue) (element : Option (List uint8_t))
    (h : q.length = 0) : circ_queue_pop w q element = some (-1, q, element) := by
  unfold circ_queue_pop
  rw [if_pos ((is_empty_ne_zero q).2 h)]

theorem pop_null {w : Nat} {q : circ_queue} (h : valid w q) (hl : 0 < q.length) :
    circ_queue_pop w q none =
      some (0, after_pop q, none) := by
  have hcap := valid_capacity_lt h
  obtain ⟨hc, he, hf, hb, hlen, hbk, hd, hs⟩ := h
  unfold circ_queue_pop
  rw [if_neg (by rw [is_empty_ne_zero]; omega)]
  simp only
  rw [size_add_of_lt (by omega), size_sub_one hl (by omega)]
  rfl

theorem pop_some {w : Nat} {q : circ_queue} (h : valid w q) (hl : 0 < q.length)
    (buf : List uint8_t) (hbuf : q.element_size ≤ buf.length) :
    circ_queue_pop w q (some buf) =
      some (0, after_pop q, some (store buf 0 (slot q q.front))) := by
  have hcap := valid_capacity_lt h
  have hoff := valid_offset h h.2.2.1
  obtain ⟨hc, he, hf, hb, hlen, hbk, hd, hs⟩ := h
  unfold circ_queue_pop
  rw [if_neg (by rw [is_empty_ne_zero]; omega)]
  have hm : memcpy buf 0 q.data (size_mul w q.element_size q.front) q.element_size =
      some (store buf 0 (slot q q.front)) := by
    unfold memcpy
    rw [hoff.1, if_pos ⟨by omega, hoff.2⟩]
    rfl
  simp only [hm, Option.map_some']
  rw [size_add_of_lt (by omega), size_sub_one hl (by omega)]
  rfl

theorem push_copy_ok {w : Nat} {q : circ_queue} (h : valid w q) (hl : q.length < q.capacity)
    (E : List uint8_t) (hE : q.element_size ≤ E.length) :
    circ_queue_push_copy w q E =
      some (0, after_push q (E.take q.element_size)) := by
  have hcap := valid_capacity_lt h
  have hoff := valid_offset h h.2.2.2.1
  obtain ⟨hc, he, hf, hb, hlen, hbk, hd, hs⟩ := h
  unfold circ_queue_push_copy
  have hm : memcpy q.data (size_mul w q.element_size q.back) E 0 q.element_size =
      some (store q.data (q.element_size * q.back) (E.take q.element_size)) := by
    unfold memcpy
    rw [hoff.1, if_pos ⟨hoff.2, by omega⟩, load_zero]
  simp only [hm]
  rw [size_add_of_lt (by omega), size_add_of_lt (by omega)]
  rfl

/-! ## Validity is kept, and the logical contents behave as a FIFO list -/

theorem valid_pop {w : Nat} {q : circ_queue} (h : valid w q) (hl : 0 < q.length) :
    valid w (after_pop q) := by
  obtain ⟨hc, he, hf, hb, hlen, hbk, hd, hs⟩ := h
  refine ⟨hc, he, Nat.mod_lt _ hc, hb, ?_, ?_, hd, hs⟩
  · show q.length - 1 ≤ q.capacity
    omega
  · show q.back = ((q.front + 1) % q.capacity + (q.length - 1)) % q.capacity
    rw [Nat.mod_add_mod, hbk]
    congr 1
    omega

theorem valid_push {w : Nat} {q : circ_queue} (h : valid w q) (hl : q.length < q.capacity)
    (bytes : List uint8_t) (hE : bytes.length = q.element_size) :
    valid w (after_push q bytes) := by
  have hoff := valid_offset h h.2.2.2.1
  obtain ⟨hc, he, hf, hb, hlen, hbk, hd, hs⟩ := h
  refine ⟨hc, he, hf, Nat.mod_lt _ hc, ?_, ?_, ?_, hs⟩
  · show q.length + 1 ≤ q.capacity
    omega
  · show (q.back + 1) % q.capacity = (q.front + (q.length + 1)) % q.capacity
    rw [hbk, Nat.mod_add_mod]
    rfl
  · show (store q.data (q.element_size * q.back) bytes).length = q.capacity * q.element_size
    rw [length_store _ _ _ (by rw [hE]; exact hoff.2), hd]

theorem length_contents (q : circ_queue) : (contents q).length = q.length := by
  simp [contents]

theorem contents_empty (q : circ_queue) (h : q.length = 0) : contents q = [] := by
  simp [contents, h]

theorem contents_pop {w : Nat} {q : circ_queue} (h : valid w q) (hl : 0 < q.length) :
    contents q = slot q q.front :: contents (after_pop q) := by
  obtain ⟨hc, he, hf, hb, hlen, hbk, hd, hs⟩ := h
  unfold contents after_pop
  obtain ⟨n, hn⟩ : ∃ n, q.length = n + 1 := ⟨q.length - 1, by omega⟩
  simp only [hn, Nat.add_sub_cancel]
  rw [List.range_succ_eq_map, List.map_cons, List.map_map]
  congr 1
  · simp only [Nat.add_zero, Nat.mod_eq_of_lt hf]
  · apply List.map_congr_left
    intro i _
    simp only [Function.comp, slot]
    rw [Nat.mod_add_mod]
    congr 3
    omega

theorem slot_store {w : Nat} {q : circ_queue} (h : valid w q) (bytes : List uint8_t)
    (hE : bytes.length = q.element_size) (b j : Nat) (hb : b < q.capacity)
    (q1 : circ_queue) (hd1 : q1.data = store q.data (q.element_size * b) bytes)
    (he1 : q1.element_size = q.element_size) :
    slot q1 j = if j = b then bytes else slot q j := by
  have hoff := valid_offset h hb
  unfold slot
  rw [hd1, he1]
  split
  · next hj =>
    subst hj
    have := load_store_same q.data (q.element_size * j) bytes (by rw [hE]; exact hoff.2)
    rw [hE] at this
    exact this
  · next hj =>
    apply load_store_disjoint _ _ _ _ _ (by rw [hE]; exact hoff.2)
    rw [hE]
    exact slot_disjoint hj

theorem contents_push {w : Nat} {q : circ_queue} (h : valid w q) (hl : q.length < q.capacity)
    (bytes : List uint8_t) (hE : bytes.length = q.element_size) :
    contents (after_push q bytes) = contents q ++ [bytes] := by
  have hst : ∀ j, slot (after_push q bytes) j = if j = q.back then bytes else slot q j :=
    fun j => slot_store h bytes hE q.back j h.2.2.2.1 _ rfl rfl
  obtain ⟨hc, he, hf, hb, hlen, hbk, hd, hs⟩ := h
  unfold contents
  simp only [after_push] at hst ⊢
  rw [List.range_succ, List.map_append, List.map_singleton]
  congr 1
  · apply List.map_congr_left
    intro i hi
    rw [List.mem_range] at hi
    rw [hst, if_neg]
    rw [hbk, mod_wrap (by omega), mod_wrap (by omega)]
    split <;> split <;> omega
  · rw [hst, if_pos hbk.symm]

/-! ## The three cases of `circ_queue_push` -/

theorem push_not_full {w : Nat} {q : circ_queue} (h : valid w q) (hl : q.length < q.capacity)
    (E : List uint8_t) (hE : q.element_size ≤ E.length) (flag : Int) :
    circ_queue_push w q E flag = some (0, after_push q (E.take q.element_size)) := by
  unfold circ_queue_push
  rw [if_neg (by rw [is_full_ne_zero]; omega)]
  exact push_copy_ok h hl E hE

theorem push_full_refuse (w : Nat) (q : circ_queue) (hl : q.length = q.capacity)
    (E : List uint8_t) : circ_queue_push w q E 0 = some (-1, q) := by
  unfold circ_queue_push
  rw [if_pos ((is_full_ne_zero q).2 hl), if_pos rfl]

theorem push_full_evict {w : Nat} {q : circ_queue} (h : valid w q) (hl : q.length = q.capacity)
    (E : List uint8_t) (hE : q.element_size ≤ E.length) (flag : Int) (hflag : flag ≠ 0) :
    circ_queue_push w q E flag =
      some (0, after_push (after_pop q) (E.take q.element_size)) := by
  have hpos : 0 < q.length := by have := h.1; omega
  unfold circ_queue_push
  rw [if_pos ((is_full_ne_zero q).2 hl), if_neg hflag, pop_null h hpos]
  simp only
  have hv := valid_pop h hpos
  exact push_copy_ok hv (by show q.length - 1 < q.capacity; omega) E hE

/-! ## The client loops on a valid queue -/

theorem length_slot {w : Nat} {q : circ_queue} (h : valid w q) {i : Nat}
    (hi : i < q.capacity) : (slot q i).length = q.element_size :=
  length_load _ _ _ (valid_offset h hi).2

theorem pop_n_spec {w : Nat} (out : List uint8_t) (n : Nat) :
    ∀ q : circ_queue, valid w q → n ≤ q.length → out.length = q.element_size →
      ∃ q1, pop_n w out q n = some (((contents q).take n).map (fun x => ((0 : Int), x)), q1) ∧
        valid w q1 ∧ contents q1 = (contents q).drop n ∧ q1.length = q.length - n ∧
        q1.capacity = q.capacity ∧ q1.element_size = q.element_size := by
  induction n with
  | zero =>
    intro q h _ _
    exact ⟨q, by simp [pop_n], h, by simp, by simp, rfl, rfl⟩
  | succ n ih =>
    intro q h hn hout
    have hpos : 0 < q.length := by omega
    have hv := valid_pop h hpos
    have hst : store out 0 (slot q q.front) = slot q q.front :=
      store_zero _ _ (by rw [hout, length_slot h h.2.2.1])
    obtain ⟨q1, h1, h2, h3, h4, h5, h6⟩ := ih (after_pop q) hv
      (by show n ≤ q.length - 1; omega) hout
    refine ⟨q1, ?_, h2, ?_, ?_, h5, h6⟩
    · rw [pop_n, pop_some h hpos out (by omega), hst]
      simp only [h1]
      rw [contents_pop h hpos]
      rfl
    · rw [h3, contents_pop h hpos]
      rfl
    · rw [h4]
      show q.length - 1 - n = q.length - (n + 1)
      omega

theorem push_all_spec {w : Nat} (flag : Int) (xs : List (List uint8_t)) :
    ∀ q : circ_queue, valid w q → q.length + xs.length ≤ q.capacity →
      (∀ x ∈ xs, x.length = q.element_size) →
      ∃ q1, push_all w flag q xs = some (List.replicate xs.length 0, q1) ∧
        valid w q1 ∧ contents q1 = contents q ++ xs ∧ q1.length = q.length + xs.length ∧
        q1.capacity = q.capacity ∧ q1.element_size = q.element_size ∧
        q1.front = q.front := by
  induction xs with
  | nil =>
    intro q h _ _
    exact ⟨q, by simp [push_all], h, by simp, by simp, rfl, rfl, rfl⟩
  | cons x xs ih =>
    intro q h hn hx
    have hxl : x.length = q.element_size := hx x (List.mem_cons_self _ _)
    have hlt : q.length < q.capacity := by simp only [List.length_cons] at hn; omega
    have htake : x.take q.element_size = x := List.take_of_length_le (by omega)
    have hv := valid_push h hlt x hxl
    obtain ⟨q1, h1, h2, h3, h4, h5, h6, h7⟩ := ih (after_push q x) hv
      (by show q.length + 1 + xs.length ≤ q.capacity
          simp only [List.length_cons] at hn; omega)
      (fun y hy => hx y (List.mem_cons_of_mem _ hy))
    refine ⟨q1, ?_, h2, ?_, ?_, h5, h6, h7⟩
    · rw [push_all, push_not_full h hlt x (by omega), htake]
      simp only [h1]
      rfl
    · rw [h3, contents_push h hlt x hxl]
      simp
    · rw [h4]
      show q.length + 1 + xs.length = q.length + (x :: xs).length
      simp only [List.length_cons]; omega

/-! ## The claims -/

/-- C1. FIFO ordering: on a valid empty queue (at any front index) pushing the
`k ≤ capacity` elements of `xs` with flag 0 returns 0 every time, and `k` pops
then each return 0 and deliver `xs` in the order pushed, leaving length 0. -/
theorem fifo_order (w : Nat) (q : circ_queue) (xs : List (List uint8_t)) (out : List uint8_t)
    (hv : valid w q) (hempty : q.length = 0) (hk : xs.length ≤ q.capacity)
    (hxs : ∀ x ∈ xs, x.length = q.element_size) (hout : out.length = q.element_size) :
    ∃ q1 q2, push_all w 0 q xs = some (List.replicate xs.length 0, q1) ∧
      pop_n w out q1 xs.length = some (xs.map (fun x => ((0 : Int), x)), q2) ∧
      q2.length = 0 := by
  obtain ⟨q1, h1, hv1, hc1, hl1, -, he1, -⟩ := push_all_spec 0 xs q hv (by omega) hxs
  obtain ⟨q2, h2, -, -, hl2, -, -⟩ := pop_n_spec out xs.length q1 hv1 (by omega)
    (by rw [he1]; exact hout)
  refine ⟨q1, q2, h1, ?_, by omega⟩
  rw [h2, hc1, contents_empty q hempty, List.nil_append]
  rw [List.take_of_length_le (Nat.le_refl _)]

theorem fifo_order_witness :
    valid 64 wrapping_queue ∧
    ∃ q1 q2, push_all 64 0 wrapping_queue [[1, 2], [3, 4], [5, 6]] = some ([0, 0, 0], q1) ∧
      pop_n 64 [0, 0] q1 3 = some ([(0, [1, 2]), (0, [3, 4]), (0, [5, 6])], q2) ∧
      q2.length = 0 :=
  ⟨by decide,
   fifo_order 64 wrapping_queue [[1, 2], [3, 4], [5, 6]] [0, 0] (by decide) rfl (by decide)
    (by decide) rfl⟩

/-- C2. Round trip: on a valid empty queue, a push of an element `E` of
`element_size` bytes returns 0 for every flag value, and the pop that follows
returns 0, delivers exactly the bytes of `E` and leaves the queue empty. -/
theorem round_trip (w : Nat) (q : circ_queue) (E out : List uint8_t) (flag : Int)
    (hv : valid w q) (hempty : q.length = 0) (hE : E.length = q.element_size)
    (hout : out.length = q.element_size) :
    ∃ q1 q2, circ_queue_push w q E flag = some (0, q1) ∧
      circ_queue_pop w q1 (some out) = some (0, q2, some E) ∧
      q2.length = 0 ∧ circ_queue_is_empty q2 ≠ 0 := by
  have hlt : q.length < q.capacity := by have := hv.1; omega
  have htake : E.take q.element_size = E := List.take_of_length_le (by omega)
  have hv1 := valid_push hv hlt E hE
  have hpos : 0 < (after_push q E).length := by show 0 < q.length + 1; omega
  have hc : contents (after_push q E) = [E] := by
    rw [contents_push hv hlt E hE, contents_empty q hempty]; rfl
  have hc2 := contents_pop hv1 hpos
  rw [hc] at hc2
  have hslot : slot (after_push q E) (after_push q E).front = E := by
    injection hc2 with h _
    exact h.symm
  refine ⟨after_push q E, after_pop (after_push q E), ?_, ?_, ?_, ?_⟩
  · rw [push_not_full hv hlt E (by omega), htake]
  · rw [pop_some hv1 hpos out (by rw [hout]; exact Nat.le_refl _), hslot,
      store_zero _ _ (by rw [hout, hE])]
  · show q.length + 1 - 1 = 0
    omega
  · rw [is_empty_ne_zero]
    show q.length + 1 - 1 = 0
    omega

theorem round_trip_witness :
    valid 64 wrapping_queue ∧
    ∃ q1 q2, circ_queue_push 64 wrapping_queue [55, 0] 1 = some (0, q1) ∧
      circ_queue_pop 64 q1 (some [222, 173]) = some (0, q2, some [55, 0]) ∧
      q2.length = 0 ∧ circ_queue_is_empty q2 ≠ 0 :=
  ⟨by decide, round_trip 64 wrapping_queue [55, 0] [222, 173] 1 (by decide) rfl rfl rfl⟩

/-- C3. On a valid queue, with an element of at least `element_size` bytes,
`circ_queue_push` returns, and its return value is -1 exactly when the queue
is full and the flag is 0; in every other case it is 0. -/
theorem push_return_value (w : Nat) (q : circ_queue) (E : List uint8_t) (flag : Int)
    (hv : valid w q) (hE : q.element_size ≤ E.length) :
    ∃ r q1, circ_queue_push w q E flag = some (r, q1) ∧
      (r = -1 ↔ (q.length = q.capacity ∧ flag = 0)) ∧
      (¬ (q.length = q.capacity ∧ flag = 0) → r = 0) := by
  by_cases hfull : q.length = q.capacity
  · by_cases hflag : flag = 0
    · subst hflag
      exact ⟨-1, q, push_full_refuse w q hfull E, by simp [hfull], by simp [hfull]⟩
    · refine ⟨0, _, push_full_evict hv hfull E hE flag hflag, ?_, fun _ => rfl⟩
      simp [hflag]
  · have hlt : q.length < q.capacity := by have := hv.2.2.2.2.1; omega
    refine ⟨0, _, push_not_full hv hlt E hE flag, ?_, fun _ => rfl⟩
    simp [hfull]

theorem push_return_value_witness :
    valid 64 full_queue ∧
    ∃ r q1, circ_queue_push 64 full_queue [7, 8] 0 = some (r, q1) ∧
      (r = -1 ↔ (full_queue.length = full_queue.capacity ∧ (0 : Int) = 0)) ∧
      (¬ (full_queue.length = full_queue.capacity ∧ (0 : Int) = 0) → r = 0) :=
  ⟨by decide, push_return_value 64 full_queue [7, 8] 0 (by decide) (by decide)⟩

/-- C4. Overflow is atomic: on a full queue, `circ_queue_push` with flag 0
returns -1 and the queue afterwards is the queue before: front, back, length,
capacity, element size and every byte of the data buffer are unchanged. -/
theorem overflow_atomic (w : Nat) (q : circ_queue) (E : List uint8_t)
    (hfull : q.length = q.capacity) :
    ∃ q1, circ_queue_push w q E 0 = some (-1, q1) ∧
      q1.front = q.front ∧ q1.back = q.back ∧ q1.length = q.length ∧
      q1.capacity = q.capacity ∧ q1.element_size = q.element_size ∧ q1.data = q.data ∧
      q1 = q :=
  ⟨q, push_full_refuse w q hfull E, rfl, rfl, rfl, rfl, rfl, rfl, rfl⟩

theorem overflow_atomic_witness :
    full_queue.length = full_queue.capacity ∧
    ∃ q1, circ_queue_push 64 full_queue [7, 8] 0 = some (-1, q1) ∧
      q1.front = full_queue.front ∧ q1.back = full_queue.back ∧
      q1.length = full_queue.length ∧ q1.capacity = full_queue.capacity ∧
      q1.element_size = full_queue.element_size ∧ q1.data = full_queue.data ∧
      q1 = full_queue :=
  ⟨rfl, overflow_atomic 64 full_queue [7, 8] rfl⟩

/-- C5. Underflow: `circ_queue_pop` returns -1 exactly when the queue is
empty, and on an empty queue it returns -1 with the queue and the output
object (when one is supplied) exactly as they were. -/
theorem pop_underflow (w : Nat) (q : circ_queue) (element : Option (List uint8_t)) :
    ((∃ q1 e1, circ_queue_pop w q element = some (-1, q1, e1)) ↔ q.length = 0) ∧
    (q.length = 0 → circ_queue_pop w q element = some (-1, q, element)) := by
  refine ⟨⟨?_, fun h => ⟨q, element, pop_empty w q element h⟩⟩, pop_empty w q element⟩
  rintro ⟨q1, e1, h⟩
  by_contra hne
  unfold circ_queue_pop at h
  rw [if_neg (by rw [is_empty_ne_zero]; exact hne)] at h
  simp only at h
  split at h
  · exact Option.noConfusion h
  · simp at h

theorem front_valid {w : Nat} {q : circ_queue} (h : valid w q) (hl : 0 < q.length) :
    circ_queue_front w q = some (q.element_size * q.front) := by
  unfold circ_queue_front
  rw [if_neg (by rw [is_empty_ne_zero]; omega), (valid_offset h h.2.2.1).1]

theorem view_slot (q : circ_queue) (i : Nat) : view q (q.element_size * i) = slot q i := rfl

/-- C6. On a valid non-empty queue `circ_queue_pop` returns 0, sets `front`
to `(front + 1) mod capacity`, takes 1 from `length` and leaves `back`, the
capacity, the element size and the data buffer unchanged; an output object
receives exactly the element `circ_queue_front` viewed before the call; with
`NULL` the return value and the queue afterwards are the same. -/
theorem pop_nonempty_effect (w : Nat) (q : circ_queue) (out : List uint8_t)
    (hv : valid w q) (hne : q.length ≠ 0) (hout : out.length = q.element_size) :
    ∃ p q1, circ_queue_front w q = some p ∧
      circ_queue_pop w q (some out) = some (0, q1, some (view q p)) ∧
      circ_queue_pop w q none = some (0, q1, none) ∧
      q1.front = (q.front + 1) % q.capacity ∧ q1.length + 1 = q.length ∧
      q1.back = q.back ∧ q1.data = q.data ∧
      q1.capacity = q.capacity ∧ q1.element_size = q.element_size := by
  have hpos : 0 < q.length := Nat.pos_of_ne_zero hne
  refine ⟨q.element_size * q.front, after_pop q, front_valid hv hpos, ?_, pop_null hv hpos,
    rfl, ?_, rfl, rfl, rfl, rfl⟩
  · rw [pop_some hv hpos out (by omega), view_slot,
      store_zero _ _ (by rw [hout, length_slot hv hv.2.2.1])]
  · show q.length - 1 + 1 = q.length
    omega

theorem pop_nonempty_effect_witness :
    valid 64 full_queue ∧
    ∃ p q1, circ_queue_front 64 full_queue = some p ∧
      circ_queue_pop 64 full_queue (some [0, 0]) = some (0, q1, some (view full_queue p)) ∧
      circ_queue_pop 64 full_queue none = some (0, q1, none) ∧
      q1.front = (full_queue.front + 1) % full_queue.capacity ∧
      q1.length + 1 = full_queue.length ∧
      q1.back = full_queue.back ∧ q1.data = full_queue.data ∧
      q1.capacity = full_queue.capacity ∧ q1.element_size = full_queue.element_size :=
  ⟨by decide, pop_nonempty_effect 64 full_queue [0, 0] (by decide) (by decide) rfl⟩

/-! ## Pushing onto a full queue with eviction -/

theorem valid_evict {w : Nat} {q : circ_queue} (h : valid w q) (hl : q.length = q.capacity)
    (bytes : List uint8_t) (hE : bytes.length = q.element_size) :
    valid w (after_push (after_pop q) bytes) := by
  have hpos : 0 < q.length := by have := h.1; omega
  exact valid_push (valid_pop h hpos) (by show q.length - 1 < q.capacity; omega) bytes hE

theorem contents_evict {w : Nat} {q : circ_queue} (h : valid w q) (hl : q.length = q.capacity)
    (bytes : List uint8_t) (hE : bytes.length = q.element_size) :
    contents (after_push (after_pop q) bytes) = (contents q).tail ++ [bytes] := by
  have hpos : 0 < q.length := by have := h.1; omega
  rw [contents_push (valid_pop h hpos) (by show q.length - 1 < q.capacity; omega) bytes hE,
    contents_pop h hpos]
  rfl

theorem view_front {w : Nat} {q : circ_queue} (h : valid w q) (hl : 0 < q.length) :
    ∃ p, circ_queue_front w q = some p ∧ (contents q).head? = some (view q p) := by
  refine ⟨_, front_valid h hl, ?_⟩
  rw [contents_pop h hl, view_slot]
  rfl

/-- C7 (as amended). On a valid full queue, `circ_queue_push` with a non-zero
flag returns 0 and the length stays equal to the capacity; the contents
afterwards are the contents before without the oldest element, followed by
`E`.  So `circ_queue_front` afterwards views the second-oldest element of the
contents before when the capacity is at least 2, and `E` itself when the
capacity is 1. -/
theorem overwrite_policy (w : Nat) (q : circ_queue) (E : List uint8_t) (flag : Int)
    (hv : valid w q) (hfull : q.length = q.capacity) (hE : E.length = q.element_size)
    (hflag : flag ≠ 0) :
    ∃ q1 p, circ_queue_push w q E flag = some (0, q1) ∧
      q1.length = q1.capacity ∧ q1.capacity = q.capacity ∧
      contents q1 = (contents q).tail ++ [E] ∧
      circ_queue_front w q1 = some p ∧
      (2 ≤ q.capacity → (contents q)[1]? = some (view q1 p)) ∧
      (q.capacity = 1 → view q1 p = E) := by
  have hpos : 0 < q.length := by have := hv.1; omega
  have htake : E.take q.element_size = E := List.take_of_length_le (by omega)
  have hv1 := valid_evict hv hfull E hE
  have hc1 := contents_evict hv hfull E hE
  have hlen1 : (after_push (after_pop q) E).length = q.capacity := by
    show q.length - 1 + 1 = q.capacity
    omega
  obtain ⟨p, hp, hhead⟩ := view_front hv1 (by rw [hlen1]; exact hv.1)
  refine ⟨after_push (after_pop q) E, p, ?_, hlen1, rfl, hc1, hp, ?_, ?_⟩
  · rw [push_full_evict hv hfull E (by omega) flag hflag, htake]
  · intro h2
    have hl := length_contents q
    rw [hc1] at hhead
    match hq : contents q with
    | [] => rw [hq] at hl; simp at hl; omega
    | [a] => rw [hq] at hl; simp at hl; omega
    | a :: b :: rest =>
      rw [hq] at hhead
      simpa using hhead
  · intro h1
    have hl := length_contents q
    rw [hc1] at hhead
    match hq : contents q with
    | [] => rw [hq] at hl; simp at hl; omega
    | [a] =>
      rw [hq] at hhead
      simpa using hhead.symm
    | a :: b :: rest => rw [hq] at hl; simp at hl; omega

theorem overwrite_policy_witness :
    valid 64 full_queue ∧
    ∃ q1 p, circ_queue_push 64 full_queue [7, 8] 1 = some (0, q1) ∧
      q1.length = q1.capacity ∧ q1.capacity = full_queue.capacity ∧
      contents q1 = (contents full_queue).tail ++ [[7, 8]] ∧
      circ_queue_front 64 q1 = some p ∧
      (2 ≤ full_queue.capacity → (contents full_queue)[1]? = some (view q1 p)) ∧
      (full_queue.capacity = 1 → view q1 p = [7, 8]) :=
  ⟨by decide, overwrite_policy 64 full_queue [7, 8] 1 (by decide) rfl rfl (by decide)⟩

/-- C7 (as stated) fails at capacity 1: the full queue holds the single element
`[5, 6]`; after the push of `[7, 8]` with flag 1 `circ_queue_front` views
`[7, 8]`, which is no element of the contents before the push (there is no
second-oldest element: the second pop on the old queue underflows). -/
theorem overwrite_policy_capacity_one :
    valid 64 single_queue ∧ single_queue.length = single_queue.capacity ∧
    contents single_queue = [[5, 6]] ∧
    pop_n 64 [0, 0] single_queue 2 =
      some ([(0, [5, 6]), (-1, [0, 0])], after_pop single_queue) ∧
    ∃ q1 p, circ_queue_push 64 single_queue [7, 8] 1 = some (0, q1) ∧
      circ_queue_front 64 q1 = some p ∧ view q1 p = [7, 8] ∧
      (contents single_queue)[1]? ≠ some (view q1 p) ∧
      view q1 p ∉ contents single_queue := by
  refine ⟨by decide, rfl, by decide, by decide, ?_⟩
  refine ⟨⟨0, 0, 0, 1, 1, 2, [7, 8]⟩, 0, by decide, by decide, by decide, by decide, by decide⟩

/-! ## The sliding window -/

theorem push_evicting {w : Nat} {q : circ_queue} (h : valid w q) (E : List uint8_t)
    (hE : E.length = q.element_size) (flag : Int) (hflag : flag ≠ 0) :
    ∃ q1, circ_queue_push w q E flag = some (0, q1) ∧ valid w q1 ∧
      contents q1 = (contents q ++ [E]).drop (q.length + 1 - min q.capacity (q.length + 1)) ∧
      q1.length = min q.capacity (q.length + 1) ∧
      q1.capacity = q.capacity ∧ q1.element_size = q.element_size ∧
      q1.front = (q.front + (q.length + 1 - min q.capacity (q.length + 1))) % q.capacity := by
  have htake : E.take q.element_size = E := List.take_of_length_le (by omega)
  have hlen := h.2.2.2.2.1
  have hf := h.2.2.1
  by_cases hfull : q.length = q.capacity
  · have hpos : 0 < q.length := by have := h.1; omega
    have hd : q.length + 1 - min q.capacity (q.length + 1) = 1 := by omega
    refine ⟨after_push (after_pop q) E, ?_, valid_evict h hfull E hE, ?_, ?_, rfl, rfl, ?_⟩
    · rw [push_full_evict h hfull E (by omega) flag hflag, htake]
    · rw [contents_evict h hfull E hE, hd, contents_pop h hpos]
      rfl
    · show q.length - 1 + 1 = min q.capacity (q.length + 1)
      omega
    · rw [hd]
      rfl
  · have hlt : q.length < q.capacity := by omega
    have hd : q.length + 1 - min q.capacity (q.length + 1) = 0 := by omega
    refine ⟨after_push q E, ?_, valid_push h hlt E hE, ?_, ?_, rfl, rfl, ?_⟩
    · rw [push_not_full h hlt E (by omega) flag, htake]
    · rw [contents_push h hlt E hE, hd]
      rfl
    · show q.length + 1 = min q.capacity (q.length + 1)
      omega
    · rw [hd]
      show q.front = (q.front + 0) % q.capacity
      rw [Nat.add_zero, Nat.mod_eq_of_lt hf]

theorem push_all_evicting {w : Nat} (flag : Int) (hflag : flag ≠ 0) (xs : List (List uint8_t)) :
    ∀ q : circ_queue, valid w q → (∀ x ∈ xs, x.length = q.element_size) →
      ∃ q1, push_all w flag q xs = some (List.replicate xs.length 0, q1) ∧ valid w q1 ∧
        contents q1 = (contents q ++ xs).drop
          (q.length + xs.length - min q.capacity (q.length + xs.length)) ∧
        q1.length = min q.capacity (q.length + xs.length) ∧
        q1.capacity = q.capacity ∧ q1.element_size = q.element_size ∧
        q1.front = (q.front + (q.length + xs.length - min q.capacity (q.length + xs.length)))
          % q.capacity := by
  induction xs with
  | nil =>
    intro q h _
    have hlen := h.2.2.2.2.1
    have hd : q.length + 0 - min q.capacity (q.length + 0) = 0 := by omega
    refine ⟨q, by simp [push_all], h, ?_, ?_, rfl, rfl, ?_⟩
    · simp only [List.length_nil, hd, List.append_nil, List.drop_zero]
    · simp only [List.length_nil]; omega
    · simp only [List.length_nil, Nat.add_zero] at hd ⊢
      rw [hd, Nat.add_zero, Nat.mod_eq_of_lt h.2.2.1]
  | cons x xs ih =>
    intro q h hx
    have hlen := h.2.2.2.2.1
    obtain ⟨q0, g1, g2, g3, g4, g5, g6, g7⟩ :=
      push_evicting h x (hx x (List.mem_cons_self _ _)) flag hflag
    obtain ⟨q1, h1, h2, h3, h4, h5, h6, h7⟩ := ih q0 g2
      (fun y hy => by rw [g6]; exact hx y (List.mem_cons_of_mem _ hy))
    refine ⟨q1, ?_, h2, ?_, ?_, by rw [h5, g5], by rw [h6, g6], ?_⟩
    · rw [push_all, g1]
      simp only [h1]
      rfl
    · rw [h3, g3, g4, g5]
      have hle : q.length + 1 - min q.capacity (q.length + 1) ≤ (contents q ++ [x]).length := by
        simp only [List.length_append, length_contents, List.length_singleton]; omega
      rw [← List.drop_append_of_le_length hle, List.drop_drop, List.append_assoc]
      simp only [List.singleton_append, List.length_cons]
      congr 1
      omega
    · rw [h4, g4, g5]
      simp only [List.length_cons]
      omega
    · rw [h7, g7, g4, g5, Nat.mod_add_mod]
      simp only [List.length_cons]
      congr 1
      omega

/-! ## The pointers `circ_queue_front` and `circ_queue_back` return -/

theorem size_sub_add_one {w a b : Nat} (h1 : 1 < 2 ^ w) (hab : 0 < a + b) :
    size_sub w (size_add w a b) 1 = (a + b - 1) % 2 ^ w := by
  unfold size_sub size_add
  rw [Nat.mod_eq_of_lt h1, Nat.mod_add_mod]
  have h2 : a + b + (2 ^ w - 1) = (a + b - 1) + 2 ^ w := by omega
  rw [h2, Nat.add_mod_right]

theorem back_valid {w : Nat} {q : circ_queue} (h : valid w q) (hl : 0 < q.length) :
    circ_queue_back w q =
      some (q.element_size * ((q.front + q.length - 1) % 2 ^ w % q.capacity)) := by
  have hcap := valid_capacity_lt h
  have hc := h.1
  unfold circ_queue_back
  rw [if_neg (by rw [is_empty_ne_zero]; omega), size_sub_add_one (by omega) (by omega),
    (valid_offset h (Nat.mod_lt _ hc)).1]

theorem back_valid_of_le {w : Nat} {q : circ_queue} (h : valid w q) (hl : 0 < q.length)
    (hb : q.front + q.length ≤ 2 ^ w) :
    circ_queue_back w q =
      some (q.element_size * ((q.front + (q.length - 1)) % q.capacity)) := by
  have e1 : (q.front + q.length - 1) % 2 ^ w = q.front + (q.length - 1) := by
    rw [Nat.mod_eq_of_lt (by omega)]
    omega
  rw [back_valid h hl, e1]

theorem getElem?_contents (q : circ_queue) (i : Nat) (hi : i < q.length) :
    (contents q)[i]? = some (slot q ((q.front + i) % q.capacity)) := by
  unfold contents
  rw [List.getElem?_map, List.getElem?_range hi]
  rfl

theorem getLast?_contents (q : circ_queue) (hl : 0 < q.length) :
    (contents q).getLast? = some (slot q ((q.front + (q.length - 1)) % q.capacity)) := by
  rw [List.getLast?_eq_getElem?, length_contents, getElem?_contents q _ (by omega)]

theorem view_back {w : Nat} {q : circ_queue} (h : valid w q) (hl : 0 < q.length)
    (hb : q.front + q.length ≤ 2 ^ w) :
    ∃ p, circ_queue_back w q = some p ∧ (contents q).getLast? = some (view q p) :=
  ⟨_, back_valid_of_le h hl hb, by rw [getLast?_contents q hl, view_slot]⟩

theorem pops_deliver_contents {w : Nat} {q : circ_queue} (h : valid w q) (out : List uint8_t)
    (hout : out.length = q.element_size) :
    ∃ q1, pop_n w out q q.length = some ((contents q).map (fun x => ((0 : Int), x)), q1) ∧
      q1.length = 0 := by
  obtain ⟨q1, h1, -, -, h4, -, -⟩ := pop_n_spec out q.length q h (Nat.le_refl _) hout
  refine ⟨q1, ?_, by omega⟩
  rw [h1, List.take_of_length_le (by rw [length_contents])]

/-- The sliding window (the part of C8 that holds on every valid queue, and
its last part where `front + length` does not wrap): pushing `xs` with a
non-zero flag returns 0 every time and the contents afterwards are the last
`min (capacity, |old| + |xs|)` elements of `old ++ xs`; these are what the
pops then deliver.  After `capacity` pushes onto a full queue the length is the
capacity, `circ_queue_front` views the first new value and, when
`front + length ≤ 2 ^ w`, `circ_queue_back` views the last. -/
theorem sliding_window (w : Nat) (q : circ_queue) (xs : List (List uint8_t)) (out : List uint8_t)
    (flag : Int) (hv : valid w q) (hxs : ∀ x ∈ xs, x.length = q.element_size)
    (hflag : flag ≠ 0) (hout : out.length = q.element_size) :
    ∃ q1 q2, push_all w flag q xs = some (List.replicate xs.length 0, q1) ∧
      contents q1 = (contents q ++ xs).drop
        ((contents q ++ xs).length - min q.capacity ((contents q).length + xs.length)) ∧
      q1.length = min q.capacity ((contents q).length + xs.length) ∧
      pop_n w out q1 q1.length = some ((contents q1).map (fun x => ((0 : Int), x)), q2) ∧
      (q.length = q.capacity → xs.length = q.capacity →
        q1.length = q.capacity ∧ contents q1 = xs ∧
        (∃ p, circ_queue_front w q1 = some p ∧ xs.head? = some (view q1 p)) ∧
        (q1.front + q1.length ≤ 2 ^ w →
          ∃ p, circ_queue_back w q1 = some p ∧ xs.getLast? = some (view q1 p))) := by
  obtain ⟨q1, h1, h2, h3, h4, h5, h6, h7⟩ := push_all_evicting flag hflag xs q hv hxs
  obtain ⟨q2, k1, -⟩ := pops_deliver_contents h2 out (by rw [h6]; exact hout)
  refine ⟨q1, q2, h1, ?_, ?_, k1, ?_⟩
  · rw [h3, List.length_append, length_contents]
  · rw [h4, length_contents]
  · intro hfull hlen
    have hc := hv.1
    have hl1 : q1.length = q.capacity := by rw [h4]; omega
    have hc1 : contents q1 = xs := by
      rw [h3]
      have : q.length + xs.length - min q.capacity (q.length + xs.length) = q.capacity := by
        omega
      rw [this]
      exact List.drop_left' (by rw [length_contents, hfull])
    refine ⟨hl1, hc1, ?_, ?_⟩
    · obtain ⟨p, hp, hh⟩ := view_front h2 (by omega)
      exact ⟨p, hp, by rw [← hc1]; exact hh⟩
    · intro hb
      obtain ⟨p, hp, hh⟩ := view_back h2 (by omega) hb
      exact ⟨p, hp, by rw [← hc1]; exact hh⟩

theorem sliding_window_witness :
    valid 64 full_queue ∧
    ∃ q1 q2, push_all 64 1 full_queue [[7, 8], [9, 10], [11, 12]] =
        some (List.replicate [[7, 8], [9, 10], [11, 12]].length 0, q1) ∧
      contents q1 = (contents full_queue ++ [[7, 8], [9, 10], [11, 12]]).drop
        ((contents full_queue ++ [[7, 8], [9, 10], [11, 12]]).length -
          min full_queue.capacity
            ((contents full_queue).length + [[7, 8], [9, 10], [11, 12]].length)) ∧
      q1.length = min full_queue.capacity
        ((contents full_queue).length + [[7, 8], [9, 10], [11, 12]].length) ∧
      pop_n 64 [0, 0] q1 q1.length =
        some ((contents q1).map (fun x => ((0 : Int), x)), q2) ∧
      (full_queue.length = full_queue.capacity →
        [[7, 8], [9, 10], [11, 12]].length = full_queue.capacity →
        q1.length = full_queue.capacity ∧ contents q1 = [[7, 8], [9, 10], [11, 12]] ∧
        (∃ p, circ_queue_front 64 q1 = some p ∧
          [[7, 8], [9, 10], [11, 12]].head? = some (view q1 p)) ∧
        (q1.front + q1.length ≤ 2 ^ 64 →
          ∃ p, circ_queue_back 64 q1 = some p ∧
            [[7, 8], [9, 10], [11, 12]].getLast? = some (view q1 p))) :=
  ⟨by decide,
   sliding_window 64 full_queue [[7, 8], [9, 10], [11, 12]] [0, 0] 1 (by decide) (by decide)
    (by decide) rfl⟩

/-! ## Queues of more than `2 ^ (w - 1)` elements: `front + length` wraps -/

theorem valid_huge_queue : valid 32 huge_queue := by
  unfold valid huge_queue
  simp only [List.length_replicate]
  decide

theorem valid_huge_full_queue : valid 32 huge_full_queue := by
  unfold valid huge_full_queue
  simp only [List.length_replicate]
  decide

theorem length_huge_values : huge_values.length = 3221225472 := by
  show (List.replicate 3221225471 [1] ++ [[9]]).length = 3221225472
  rw [List.length_append, List.length_replicate, List.length_singleton]

theorem view_of_contents (q : circ_queue) (i : Nat)
    (hi : i < q.length) (x : List uint8_t) (hx : (contents q)[i]? = some x) :
    view q (q.element_size * ((q.front + i) % q.capacity)) = x := by
  rw [getElem?_contents q i hi] at hx
  rw [view_slot]
  exact Option.some.inj hx

theorem getElem?_huge_values : huge_values[2147483647]? = some [1] := by
  show (List.replicate 3221225471 [1] ++ [[9]])[2147483647]? = some [1]
  rw [List.getElem?_append_left (by rw [List.length_replicate]; decide),
    List.getElem?_replicate, if_pos (by decide)]

theorem getLast?_huge_values : huge_values.getLast? = some [9] := by
  show (List.replicate 3221225471 [1] ++ [[9]]).getLast? = some [9]
  rw [List.getLast?_append]
  rfl

theorem mem_huge_values (x : List uint8_t) (hx : x ∈ huge_values) : x.length = 1 := by
  unfold huge_values at hx
  rw [List.mem_append, List.mem_replicate, List.mem_singleton] at hx
  rcases hx with ⟨-, rfl⟩ | rfl <;> rfl

/-- C8 at a failing input (32-bit `size_t`, a full queue of `3 * 2 ^ 30`
one-byte elements with `front = 2 ^ 31`).  Pushing `capacity` new values with
flag 1 returns 0 every time and leaves exactly the new values as contents,
the last of which is `[9]`; but `front + length - 1` wraps and
`circ_queue_back` returns offset `2 ^ 30 - 1`, where the value is `[1]`. -/
theorem sliding_window_back_wraps :
    valid 32 huge_full_queue ∧ huge_full_queue.length = huge_full_queue.capacity ∧
    huge_values.length = huge_full_queue.capacity ∧
    ∃ q1 p, push_all 32 1 huge_full_queue huge_values =
        some (List.replicate huge_values.length 0, q1) ∧
      q1.length = huge_full_queue.capacity ∧ contents q1 = huge_values ∧
      huge_values.getLast? = some [9] ∧
      circ_queue_back 32 q1 = some p ∧ p = 1073741823 ∧ view q1 p = [1] := by
  have hv := valid_huge_full_queue
  obtain ⟨q1, h1, h2, h3, h4, h5, h6, h7⟩ :=
    push_all_evicting 1 (by decide) huge_values huge_full_queue hv mem_huge_values
  rw [length_huge_values] at h3 h4 h7
  have hl1 : q1.length = 3221225472 := by rw [h4]; decide
  have hc : q1.capacity = 3221225472 := h5
  have he : q1.element_size = 1 := h6
  have hf : q1.front = 2147483648 := by rw [h7]; decide
  have hc1 : contents q1 = huge_values := by
    rw [h3]
    exact List.drop_left' (by rw [length_contents]; decide)
  have hback := back_valid h2 (by rw [hl1]; decide)
  rw [hl1, hc, he, hf] at hback
  have hview := view_of_contents q1 2147483647 (by rw [hl1]; decide) [1]
    (by rw [hc1]; exact getElem?_huge_values)
  rw [hc, he, hf] at hview
  refine ⟨hv, rfl, length_huge_values, q1, 1073741823, ?_, ?_, hc1, getLast?_huge_values, ?_, rfl,
    ?_⟩
  · rw [h1, length_huge_values]
  · rw [hl1]; rfl
  · rw [hback]; decide
  · exact hview

/-! ## Filling a freshly created queue -/

theorem create_valid {w : Nat} {malloc_queue malloc_data : Nat → Option (List uint8_t)}
    {capacity element_size : Nat} {q : circ_queue}
    (hmalloc : ∀ n buf, malloc_data n = some buf → buf.length = n)
    (hfit : capacity * element_size < 2 ^ w)
    (hq : (circ_queue_create w malloc_queue malloc_data capacity element_size).1 = some q) :
    valid w q ∧ q.length = 0 ∧ q.front = 0 ∧ q.back = 0 ∧ q.capacity = capacity ∧
      q.element_size = element_size := by
  unfold circ_queue_create at hq
  split at hq
  · exact Option.noConfusion hq
  · next hz =>
    split at hq
    · exact Option.noConfusion hq
    · simp only at hq
      split at hq
      · exact Option.noConfusion hq
      · next data hd =>
        have hlen := hmalloc _ _ hd
        rw [size_mul_of_lt hfit] at hlen
        have hq1 := Option.some.inj hq
        subst hq1
        refine ⟨⟨?_, ?_, ?_, ?_, ?_, ?_, hlen, hfit⟩, rfl, rfl, rfl, rfl, rfl⟩
        · show 0 < capacity
          omega
        · show 0 < element_size
          omega
        · show 0 < capacity
          omega
        · show 0 < capacity
          omega
        · show 0 ≤ capacity
          omega
        · show 0 = (0 + 0) % capacity
          simp

theorem push_all_full (w : Nat) (ys : List (List uint8_t)) (q : circ_queue)
    (hfull : q.length = q.capacity) :
    push_all w 0 q ys = some (List.replicate ys.length (-1), q) := by
  induction ys with
  | nil => rfl
  | cons y ys ih =>
    rw [push_all, push_full_refuse w q hfull y]
    simp only [ih]
    rfl

/-- The capacity bound (C9) for the capacities and element sizes whose product
is a `size_t` value: on the queue `circ_queue_create` returns, `capacity`
pushes with flag 0 all return 0, the length is `i` just before the `i`-th push
and `capacity` afterwards, and every further push with flag 0 returns -1 and
leaves the queue as it is. -/
theorem capacity_bound (w : Nat) (malloc_queue malloc_data : Nat → Option (List uint8_t))
    (capacity element_size : Nat) (q : circ_queue) (xs ys : List (List uint8_t))
    (hmalloc : ∀ n buf, malloc_data n = some buf → buf.length = n)
    (hfit : capacity * element_size < 2 ^ w)
    (hq : (circ_queue_create w malloc_queue malloc_data capacity element_size).1 = some q)
    (hlen : xs.length = capacity) (hxs : ∀ x ∈ xs, x.length = element_size) :
    (∀ i, i ≤ capacity → ∃ qi, push_all w 0 q (xs.take i) = some (List.replicate i 0, qi) ∧
      qi.length = i) ∧
    ∃ q1, push_all w 0 q xs = some (List.replicate capacity 0, q1) ∧ q1.length = capacity ∧
      push_all w 0 q1 ys = some (List.replicate ys.length (-1), q1) := by
  obtain ⟨hv, hl, -, -, hc, he⟩ := create_valid hmalloc hfit hq
  constructor
  · intro i hi
    obtain ⟨qi, h1, -, -, h4, -, -, -⟩ := push_all_spec 0 (xs.take i) q hv
      (by rw [List.length_take, hl, hc]; omega)
      (fun x hx => by rw [he]; exact hxs x (List.mem_of_mem_take hx))
    have hlt : (xs.take i).length = i := by rw [List.length_take]; omega
    rw [hlt] at h1 h4
    exact ⟨qi, h1, by omega⟩
  · obtain ⟨q1, h1, -, -, h4, h5, -, -⟩ := push_all_spec 0 xs q hv
      (by rw [hl, hc]; omega) (fun x hx => by rw [he]; exact hxs x hx)
    rw [hlen] at h1 h4
    refine ⟨q1, h1, by omega, push_all_full w ys q1 (by omega)⟩

theorem capacity_bound_witness :
    (5 * 4 < 2 ^ 64) ∧
    (∀ i, i ≤ 5 → ∃ qi, push_all 64 0 five_ints (five_values.take i) =
        some (List.replicate i 0, qi) ∧ qi.length = i) ∧
    ∃ q1, push_all 64 0 five_ints five_values = some (List.replicate 5 0, q1) ∧
      q1.length = 5 ∧
      push_all 64 0 q1 [[60, 0, 0, 0], [60, 0, 0, 0]] =
        some (List.replicate [[60, 0, 0, 0], [60, 0, 0, 0]].length (-1), q1) :=
  ⟨by decide,
   capacity_bound 64 zero_heap zero_heap 5 4 five_ints five_values
    [[60, 0, 0, 0], [60, 0, 0, 0]]
    (fun n buf h => by
      have := Option.some.inj h
      rw [← this, List.length_replicate])
    (by decide) (by decide) (by decide) (by decide)⟩

/-- C9 at a failing input (64-bit `size_t`): `circ_queue_create(2 ^ 63 + 1, 2)`
asks the allocator for `(2 ^ 63 + 1) * 2 mod 2 ^ 64 = 2` bytes and returns a
queue of capacity `2 ^ 63 + 1` over that two-byte buffer.  The first push
returns 0; the second is not refused (the queue is not full) and copies two
bytes to offset 2, outside the buffer. -/
theorem capacity_bound_overflow :
    ∃ q q1, circ_queue_create 64 zero_heap zero_heap 9223372036854775809 2 =
        (some q, [heap_call.malloc 56, heap_call.malloc 2]) ∧
      q.capacity = 9223372036854775809 ∧ q.length = 0 ∧ q.data.length = 2 ∧
      circ_queue_push 64 q [55, 0] 0 = some (0, q1) ∧ q1.length = 1 ∧
      circ_queue_is_full q1 = 0 ∧
      memcpy q1.data (size_mul 64 q1.element_size q1.back) [56, 0] 0 q1.element_size = none ∧
      circ_queue_push 64 q1 [56, 0] 0 = none ∧
      push_all 64 0 q [[55, 0], [56, 0]] = none :=
  ⟨⟨0, 0, 0, 0, 9223372036854775809, 2, [0, 0]⟩, ⟨0, 1, 0, 1, 9223372036854775809, 2, [55, 0]⟩,
    by decide, by decide, by decide, by decide, by decide, by decide, by decide, by decide,
    by decide, by decide⟩

/-! ## `circ_queue_back` after a push -/

theorem back_after_copy {w : Nat} {v : circ_queue} (h : valid w v) (hl : v.length < v.capacity)
    (E : List uint8_t) (hE : E.length = v.element_size)
    (hb : v.front + (v.length + 1) ≤ 2 ^ w) :
    circ_queue_back w (after_push v E) = some (v.element_size * v.back) ∧
      view (after_push v E) (v.element_size * v.back) = E ∧
      (v.front + (v.length + 1) - 1) % v.capacity = v.back := by
  have hv1 := valid_push h hl E hE
  have hbk := h.2.2.2.2.2.1
  refine ⟨?_, ?_, by rw [hbk]; rfl⟩
  · rw [back_valid_of_le hv1 (by show 0 < v.length + 1; omega) hb]
    show some (v.element_size * ((v.front + (v.length + 1 - 1)) % v.capacity)) = _
    rw [hbk]
    rfl
  · have := slot_store h E hE v.back v.back h.2.2.2.1 (after_push v E) rfl rfl
    rw [if_pos rfl] at this
    exact this

/-- The part of C10 that holds: after a push that returns 0 (with or without
eviction), when `front + length` of the new state does not exceed `2 ^ w`,
`circ_queue_back` views exactly the pushed element, and the slot
`(front + length - 1) mod capacity` of the new state is the slot `back` of the
old state, which the push wrote. -/
theorem back_after_push (w : Nat) (q q1 : circ_queue) (E : List uint8_t) (flag : Int)
    (hv : valid w q) (hE : E.length = q.element_size)
    (hpush : circ_queue_push w q E flag = some (0, q1))
    (hb : q1.front + q1.length ≤ 2 ^ w) :
    ∃ p, circ_queue_back w q1 = some p ∧ view q1 p = E ∧
      p = q1.element_size * ((q1.front + q1.length - 1) % q1.capacity) ∧
      (q1.front + q1.length - 1) % q1.capacity = q.back ∧
      q1.data = store q.data (q.element_size * q.back) E := by
  have htake : E.take q.element_size = E := List.take_of_length_le (by omega)
  by_cases hfull : q.length = q.capacity
  · by_cases hflag : flag = 0
    · subst hflag
      rw [push_full_refuse w q hfull E] at hpush
      have h01 : (-1 : Int) = 0 := congrArg Prod.fst (Option.some.inj hpush)
      exact absurd h01 (by decide)
    · have hpos : 0 < q.length := by have := hv.1; omega
      rw [push_full_evict hv hfull E (by omega) flag hflag, htake] at hpush
      have hq1 : after_push (after_pop q) E = q1 := congrArg Prod.snd (Option.some.inj hpush)
      subst hq1
      obtain ⟨h1, h2, h3⟩ := back_after_copy (valid_pop hv hpos)
        (by show q.length - 1 < q.capacity; omega) E hE hb
      exact ⟨_, h1, h2, congrArg (fun i => q.element_size * i) h3.symm, h3, rfl⟩
  · have hlt : q.length < q.capacity := by have := hv.2.2.2.2.1; omega
    rw [push_not_full hv hlt E (by omega) flag, htake] at hpush
    have hq1 : after_push q E = q1 := congrArg Prod.snd (Option.some.inj hpush)
    subst hq1
    obtain ⟨h1, h2, h3⟩ := back_after_copy hv hlt E hE hb
    exact ⟨_, h1, h2, congrArg (fun i => q.element_size * i) h3.symm, h3, rfl⟩

theorem back_after_push_witness :
    valid 64 full_queue ∧
    circ_queue_push 64 full_queue [7, 8] 1 =
      some (0, after_push (after_pop full_queue) [7, 8]) ∧
    ∃ p, circ_queue_back 64 (after_push (after_pop full_queue) [7, 8]) = some p ∧
      view (after_push (after_pop full_queue) [7, 8]) p = [7, 8] ∧
      p = (after_push (after_pop full_queue) [7, 8]).element_size *
        (((after_push (after_pop full_queue) [7, 8]).front +
          (after_push (after_pop full_queue) [7, 8]).length - 1) %
          (after_push (after_pop full_queue) [7, 8]).capacity) ∧
      ((after_push (after_pop full_queue) [7, 8]).front +
        (after_push (after_pop full_queue) [7, 8]).length - 1) %
        (after_push (after_pop full_queue) [7, 8]).capacity = full_queue.back ∧
      (after_push (after_pop full_queue) [7, 8]).data =
        store full_queue.data (full_queue.element_size * full_queue.back) [7, 8] :=
  ⟨by decide, by decide,
   back_after_push 64 full_queue (after_push (after_pop full_queue) [7, 8]) [7, 8] 1
    (by decide) rfl (by decide) (by decide)⟩

/-- C10 at a failing input (32-bit `size_t`, a queue of `3 * 2 ^ 30` one-byte
elements).  The push of `[7]` returns 0 and writes the byte at offset
`2 ^ 30`; afterwards `front + length` is `2 ^ 32 + 1`, which wraps, and
`circ_queue_back` returns offset 0, where the byte is still 0. -/
theorem back_after_push_wraps :
    valid 32 huge_queue ∧
    ∃ q1 p, circ_queue_push 32 huge_queue [7] 0 = some (0, q1) ∧
      q1.data = store huge_queue.data 1073741824 [7] ∧
      view q1 1073741824 = [7] ∧
      circ_queue_back 32 q1 = some p ∧ p = 0 ∧ view q1 p = [0] := by
  have hv := valid_huge_queue
  have hlt : huge_queue.length < huge_queue.capacity := by decide
  have hpush := push_not_full hv hlt [7] (by decide) 0
  have hv1 := valid_push hv hlt [7] rfl
  have hback := back_valid hv1 (by show 0 < huge_queue.length + 1; decide)
  refine ⟨hv, after_push huge_queue [7], 0, hpush, rfl, ?_, ?_, rfl, ?_⟩
  · exact load_store_same huge_queue.data 1073741824 [7]
      (by show 1073741824 + 1 ≤ (List.replicate 3221225472 0).length
          rw [List.length_replicate]; decide)
  · rw [hback]
    decide
  · show load (store huge_queue.data 1073741824 [7]) 0 1 = [0]
    rw [load_store_disjoint _ _ _ _ _
      (by show 1073741824 + 1 ≤ (List.replicate 3221225472 0).length
          rw [List.length_replicate]; decide)
      (by left; decide)]
    show List.take 1 (List.drop 0 (List.replicate 3221225472 0)) = [0]
    rw [List.drop_zero, List.take_replicate]
    rfl

/-! ## Queues reached by calls: the invariant `sound` -/

theorem sound_of_valid {w : Nat} {q : circ_queue} (h : valid w q) : sound w q := by
  have hcap := valid_capacity_lt h
  have hoff := fun i (hi : i < q.capacity) => (valid_offset h hi).2
  obtain ⟨hc, he, hf, hb, hlen, hbk, hd, hs⟩ := h
  refine ⟨hc, he, hcap, hf, hb, hlen, hbk, by omega, ?_, fun i _ => hoff _ (Nat.mod_lt _ hc)⟩
  have := hoff q.back hb
  omega

theorem sound_offset {w : Nat} {q : circ_queue} (h : sound w q) {i : Nat} (hi : i < q.length) :
    size_mul w q.element_size ((q.front + i) % q.capacity) =
        q.element_size * ((q.front + i) % q.capacity) ∧
      q.element_size * ((q.front + i) % q.capacity) + q.element_size ≤ q.data.length := by
  obtain ⟨hc, he, hcap, hf, hb, hlen, hbk, hd, hnext, hwin⟩ := h
  have := hwin i hi
  exact ⟨size_mul_of_lt (by omega), this⟩

theorem sound_front_offset {w : Nat} {q : circ_queue} (h : sound w q) (hl : 0 < q.length) :
    size_mul w q.element_size q.front = q.element_size * q.front ∧
      q.element_size * q.front + q.element_size ≤ q.data.length := by
  have := sound_offset h hl
  rw [Nat.add_zero, Nat.mod_eq_of_lt h.2.2.2.1] at this
  exact this

theorem for_each_loop_spec (w : Nat) (n : Nat) :
    ∀ (fuel : Nat) (q : circ_queue) (k : Nat), n < fuel → k + n = q.length →
      q.length < 2 ^ w → 0 < q.capacity → q.capacity < 2 ^ w → q.iterator < q.capacity →
      (∀ j, j < n → (q.iterator + j) % q.capacity * q.element_size < 2 ^ w) →
      for_each_loop w fuel q k =
        some ({ q with iterator := (q.iterator + n) % q.capacity },
          (List.range n).map
            (fun j => (k + j, (q.iterator + j) % q.capacity * q.element_size))) := by
  induction n with
  | zero =>
    intro fuel q k hfuel hk _ _ _ hit _
    obtain ⟨f, rfl⟩ : ∃ f, fuel = f + 1 := ⟨fuel - 1, by omega⟩
    rw [for_each_loop, if_neg (by omega)]
    simp only [Nat.add_zero, Nat.mod_eq_of_lt hit, List.range_zero, List.map_nil]
  | succ n ih =>
    intro fuel q k hfuel hk hlen hc hcap hit hoff
    obtain ⟨f, rfl⟩ : ∃ f, fuel = f + 1 := ⟨fuel - 1, by omega⟩
    rw [for_each_loop, if_pos (by omega)]
    simp only
    have h0 := hoff 0 (by omega)
    rw [Nat.add_zero, Nat.mod_eq_of_lt hit] at h0
    have e1 : size_add w q.iterator 1 = q.iterator + 1 := size_add_of_lt (by omega)
    have e2 : size_add w k 1 = k + 1 := size_add_of_lt (by omega)
    rw [e1, e2, size_mul_of_lt h0]
    have hn : n < f := by omega
    have hk1 : k + 1 + n = q.length := by omega
    have hoff1 : ∀ j, j < n →
        ((q.iterator + 1) % q.capacity + j) % q.capacity * q.element_size < 2 ^ w := by
      intro j hj
      rw [Nat.mod_add_mod]
      have := hoff (j + 1) (by omega)
      rw [show q.iterator + 1 + j = q.iterator + (j + 1) by omega]
      exact this
    rw [ih f { q with iterator := (q.iterator + 1) % q.capacity } (k + 1) hn hk1 hlen hc hcap
      (Nat.mod_lt _ hc) hoff1]
    simp only
    rw [List.range_succ_eq_map, List.map_cons, List.map_map]
    simp only [Nat.add_zero, Nat.mod_eq_of_lt hit, Nat.mod_add_mod]
    have ea : q.iterator + 1 + n = q.iterator + (n + 1) := by omega
    rw [ea]
    congr 3
    apply List.map_congr_left
    intro j _
    simp only [Function.comp]
    have eb : q.iterator + 1 + j = q.iterator + (j + 1) := by omega
    have ec : k + 1 + j = k + (j + 1) := by omega
    rw [eb, ec]

theorem for_each_spec {w : Nat} {q : circ_queue} (h : sound w q) {fuel : Nat}
    (hfuel : q.length < fuel) :
    circ_queue_for_each w fuel q =
      some ({ q with iterator := (q.front + q.length) % q.capacity },
        (List.range q.length).map
          (fun i => (i, q.element_size * ((q.front + i) % q.capacity)))) := by
  have hoff := fun j (hj : j < q.length) => sound_offset h hj
  obtain ⟨hc, he, hcap, hf, hb, hlen, hbk, hd, hnext, hwin⟩ := h
  unfold circ_queue_for_each
  rw [for_each_loop_spec w q.length fuel { q with iterator := q.front } 0 hfuel
    (Nat.zero_add _) (by show q.length < 2 ^ w; omega) hc hcap hf
    (fun j hj => by
      show (q.front + j) % q.capacity * q.element_size < 2 ^ w
      have := (hoff j hj).2
      rw [Nat.mul_comm]
      omega)]
  congr 2
  apply List.map_congr_left
  intro j _
  show (0 + j, (q.front + j) % q.capacity * q.element_size) = _
  rw [Nat.zero_add, Nat.mul_comm]

theorem pop_empty_only {w : Nat} {q : circ_queue} {element element1 : Option (List uint8_t)}
    {r : Int} {q1 : circ_queue} (hl : q.length = 0)
    (hp : circ_queue_pop w q element = some (r, q1, element1)) :
    r = -1 ∧ q1 = q ∧ element1 = element := by
  rw [pop_empty w q element hl] at hp
  have := Option.some.inj hp
  simp only [Prod.mk.injEq] at this
  exact ⟨this.1.symm, this.2.1.symm, this.2.2.symm⟩

theorem pop_null_sound {w : Nat} {q : circ_queue} (h : sound w q) (hl : 0 < q.length) :
    circ_queue_pop w q none = some (0, after_pop q, none) := by
  obtain ⟨hc, he, hcap, hf, hb, hlen, hbk, hd, hnext, hwin⟩ := h
  unfold circ_queue_pop
  rw [if_neg (by rw [is_empty_ne_zero]; omega)]
  simp only
  rw [size_add_of_lt (by omega), size_sub_one hl (by omega)]
  rfl

theorem pop_some_sound {w : Nat} {q : circ_queue} (h : sound w q) (hl : 0 < q.length)
    (buf : List uint8_t) :
    circ_queue_pop w q (some buf) =
      if q.element_size ≤ buf.length then
        some (0, after_pop q, some (store buf 0 (slot q q.front)))
      else none := by
  have hoff := sound_front_offset h hl
  obtain ⟨hc, he, hcap, hf, hb, hlen, hbk, hd, hnext, hwin⟩ := h
  unfold circ_queue_pop
  rw [if_neg (by rw [is_empty_ne_zero]; omega)]
  simp only
  unfold memcpy
  rw [hoff.1]
  by_cases hbuf : q.element_size ≤ buf.length
  · rw [if_pos ⟨by omega, hoff.2⟩, if_pos hbuf]
    simp only [Option.map_some']
    rw [size_add_of_lt (by omega), size_sub_one hl (by omega)]
    rfl
  · rw [if_neg (fun hh => hbuf (by omega)), if_neg hbuf]
    rfl

theorem sound_pop {w : Nat} {q : circ_queue} (h : sound w q) (hl : 0 < q.length) :
    sound w (after_pop q) := by
  obtain ⟨hc, he, hcap, hf, hb, hlen, hbk, hd, hnext, hwin⟩ := h
  refine ⟨hc, he, hcap, Nat.mod_lt _ hc, hb, ?_, ?_, hd, hnext, ?_⟩
  · show q.length - 1 ≤ q.capacity
    omega
  · show q.back = ((q.front + 1) % q.capacity + (q.length - 1)) % q.capacity
    rw [Nat.mod_add_mod, hbk]
    congr 1
    omega
  · intro i hi
    show q.element_size * (((q.front + 1) % q.capacity + i) % q.capacity) + q.element_size ≤
      q.data.length
    rw [Nat.mod_add_mod, show q.front + 1 + i = q.front + (i + 1) by omega]
    exact hwin (i + 1) (by have : i < q.length - 1 := hi; omega)

theorem contents_after_pop (q : circ_queue) (hf : q.front < q.capacity)
    (hl : 0 < q.length) : contents q = slot q q.front :: contents (after_pop q) := by
  unfold contents after_pop
  obtain ⟨n, hn⟩ : ∃ n, q.length = n + 1 := ⟨q.length - 1, by omega⟩
  simp only [hn, Nat.add_sub_cancel]
  rw [List.range_succ_eq_map, List.map_cons, List.map_map]
  congr 1
  · simp only [Nat.add_zero, Nat.mod_eq_of_lt hf]
  · apply List.map_congr_left
    intro i _
    simp only [Function.comp, slot]
    rw [Nat.mod_add_mod]
    congr 3
    omega

theorem pop_n_sound {w : Nat} (out : List uint8_t) (n : Nat) :
    ∀ q : circ_queue, sound w q → n ≤ q.length → out.length = q.element_size →
      ∃ q1, pop_n w out q n = some (((contents q).take n).map (fun x => ((0 : Int), x)), q1) ∧
        q1.length = q.length - n := by
  induction n with
  | zero =>
    intro q _ _ _
    exact ⟨q, by simp [pop_n], by simp⟩
  | succ n ih =>
    intro q h hn hout
    have hpos : 0 < q.length := by omega
    have hoff := sound_front_offset h hpos
    have hst : store out 0 (slot q q.front) = slot q q.front :=
      store_zero _ _ (by rw [hout]; exact (length_load _ _ _ hoff.2).symm)
    obtain ⟨q1, h1, h4⟩ := ih (after_pop q) (sound_pop h hpos)
      (by show n ≤ q.length - 1; omega) hout
    refine ⟨q1, ?_, ?_⟩
    · rw [pop_n, pop_some_sound h hpos out, if_pos (by omega), hst]
      simp only [h1]
      rw [contents_after_pop q h.2.2.2.1 hpos]
      rfl
    · rw [h4]
      show q.length - 1 - n = q.length - (n + 1)
      omega

theorem push_copy_sound {w : Nat} {q : circ_queue} (h : sound w q) (hl : q.length < q.capacity)
    (E : List uint8_t) :
    circ_queue_push_copy w q E =
      if q.element_size * q.back + q.element_size ≤ q.data.length ∧
          q.element_size ≤ E.length then
        some (0, after_push q (E.take q.element_size))
      else none := by
  obtain ⟨hc, he, hcap, hf, hb, hlen, hbk, hd, hnext, hwin⟩ := h
  have e1 : size_add w q.back 1 = q.back + 1 := size_add_of_lt (by omega)
  have e2 : size_add w q.length 1 = q.length + 1 := size_add_of_lt (by omega)
  unfold circ_queue_push_copy memcpy
  rw [size_mul_of_lt (by omega)]
  by_cases hfit : q.element_size * q.back + q.element_size ≤ q.data.length ∧
      q.element_size ≤ E.length
  · rw [if_pos ⟨hfit.1, by omega⟩, if_pos hfit]
    simp only
    rw [e1, e2, load_zero]
    rfl
  · rw [if_neg (fun hh => hfit ⟨hh.1, by omega⟩), if_neg hfit]

theorem sound_push {w : Nat} {q : circ_queue} (h : sound w q) (hl : q.length < q.capacity)
    (bytes : List uint8_t) (hE : bytes.length = q.element_size)
    (hfit : q.element_size * q.back + q.element_size ≤ q.data.length) :
    sound w (after_push q bytes) := by
  obtain ⟨hc, he, hcap, hf, hb, hlen, hbk, hd, hnext, hwin⟩ := h
  have hlenst : (store q.data (q.element_size * q.back) bytes).length = q.data.length :=
    length_store _ _ _ (by rw [hE]; exact hfit)
  refine ⟨hc, he, hcap, hf, Nat.mod_lt _ hc, ?_, ?_, ?_, ?_, ?_⟩
  · show q.length + 1 ≤ q.capacity
    omega
  · show (q.back + 1) % q.capacity = (q.front + (q.length + 1)) % q.capacity
    rw [hbk, Nat.mod_add_mod]
    rfl
  · show (store q.data (q.element_size * q.back) bytes).length < 2 ^ w
    rw [hlenst]; exact hd
  · show q.element_size * ((q.back + 1) % q.capacity) ≤
      (store q.data (q.element_size * q.back) bytes).length
    rw [hlenst, mod_wrap (by omega)]
    split
    · rw [Nat.mul_succ]; exact hfit
    · next hge =>
      have : q.back + 1 - q.capacity = 0 := by omega
      rw [this, Nat.mul_zero]
      exact Nat.zero_le _
  · intro i hi
    show q.element_size * ((q.front + i) % q.capacity) + q.element_size ≤
      (store q.data (q.element_size * q.back) bytes).length
    rw [hlenst]
    have hi1 : i < q.length + 1 := hi
    rcases Nat.lt_or_ge i q.length with hlt | hge
    · exact hwin i hlt
    · have : i = q.length := by omega
      rw [this, ← hbk]
      exact hfit

theorem written_mono {q : circ_queue} {ws : List Nat} (x : Nat) (h : window_written q ws) :
    window_written q (x :: ws) :=
  fun i hi => List.mem_cons_of_mem _ (h i hi)

theorem written_pop {q : circ_queue} {ws : List Nat} (h : window_written q ws)
    (hl : 0 < q.length) : window_written (after_pop q) ws := by
  intro i hi
  show q.element_size * (((q.front + 1) % q.capacity + i) % q.capacity) ∈ ws
  rw [Nat.mod_add_mod, show q.front + 1 + i = q.front + (i + 1) by omega]
  exact h (i + 1) (by have : i < q.length - 1 := hi; omega)

theorem written_push {q : circ_queue} {ws : List Nat} (h : window_written q ws)
    (hbk : q.back = (q.front + q.length) % q.capacity) (bytes : List uint8_t) :
    window_written (after_push q bytes) (q.element_size * q.back :: ws) := by
  intro i hi
  show q.element_size * ((q.front + i) % q.capacity) ∈ q.element_size * q.back :: ws
  have hi1 : i < q.length + 1 := hi
  rcases Nat.lt_or_ge i q.length with hlt | hge
  · exact List.mem_cons_of_mem _ (h i hlt)
  · have : i = q.length := by omega
    rw [this, ← hbk]
    exact List.mem_cons_self _ _

/-- One call of `circ_queue_pop` that has a result keeps the invariant. -/
theorem step_pop {w : Nat} {q q1 : circ_queue} {ws : List Nat}
    {element element1 : Option (List uint8_t)} {r : Int}
    (h : sound w q) (hw : window_written q ws)
    (hp : circ_queue_pop w q element = some (r, q1, element1)) :
    sound w q1 ∧ window_written q1 ws ∧ q1.capacity = q.capacity ∧
      q1.element_size = q.element_size := by
  by_cases hl : q.length = 0
  · obtain ⟨-, rfl, -⟩ := pop_empty_only hl hp
    exact ⟨h, hw, rfl, rfl⟩
  · have hpos : 0 < q.length := Nat.pos_of_ne_zero hl
    have hq1 : q1 = after_pop q := by
      cases element with
      | none =>
        rw [pop_null_sound h hpos] at hp
        exact (congrArg (fun x => x.2.1) (Option.some.inj hp)).symm
      | some buf =>
        rw [pop_some_sound h hpos buf] at hp
        split at hp
        · exact (congrArg (fun x => x.2.1) (Option.some.inj hp)).symm
        · exact Option.noConfusion hp
    subst hq1
    exact ⟨sound_pop h hpos, written_pop hw hpos, rfl, rfl⟩

/-- One call of `circ_queue_push` that has a result keeps the invariant; when
it returns 0 the offset it copied to is `element_size * back`. -/
theorem step_push {w : Nat} {q q1 : circ_queue} {ws : List Nat} {E : List uint8_t}
    {flag r : Int} (h : sound w q) (hw : window_written q ws)
    (hp : circ_queue_push w q E flag = some (r, q1)) :
    sound w q1 ∧
      window_written q1 (if r = 0 then size_mul w q.element_size q.back :: ws else ws) ∧
      q1.capacity = q.capacity ∧ q1.element_size = q.element_size := by
  have hoffb : size_mul w q.element_size q.back = q.element_size * q.back :=
    size_mul_of_lt (by have := h.2.2.2.2.2.2.2.1; have := h.2.2.2.2.2.2.2.2.1; omega)
  have hlen := h.2.2.2.2.2.1
  have hc := h.1
  unfold circ_queue_push at hp
  by_cases hfull : q.length = q.capacity
  · rw [if_pos ((is_full_ne_zero q).2 hfull)] at hp
    by_cases hflag : flag = 0
    · rw [if_pos hflag] at hp
      have := Option.some.inj hp
      simp only [Prod.mk.injEq] at this
      obtain ⟨rfl, rfl⟩ := this
      exact ⟨h, by rw [if_neg (by decide)]; exact hw, rfl, rfl⟩
    · have hpos : 0 < q.length := by omega
      rw [if_neg hflag, pop_null_sound h hpos] at hp
      simp only at hp
      have hs1 := sound_pop h hpos
      rw [push_copy_sound hs1 (by show q.length - 1 < q.capacity; omega)] at hp
      split at hp
      · next hfit =>
        have := Option.some.inj hp
        simp only [Prod.mk.injEq] at this
        obtain ⟨rfl, rfl⟩ := this
        refine ⟨sound_push hs1 (by show q.length - 1 < q.capacity; omega) _
          (by rw [List.length_take]; exact Nat.min_eq_left hfit.2) hfit.1, ?_, rfl, rfl⟩
        rw [if_pos rfl, hoffb]
        exact written_push (written_pop hw hpos) hs1.2.2.2.2.2.2.1 _
      · exact Option.noConfusion hp
  · rw [if_neg (by rw [is_full_ne_zero]; exact hfull)] at hp
    have hlt : q.length < q.capacity := by omega
    rw [push_copy_sound h hlt] at hp
    split at hp
    · next hfit =>
      have := Option.some.inj hp
      simp only [Prod.mk.injEq] at this
      obtain ⟨rfl, rfl⟩ := this
      refine ⟨sound_push h hlt _
        (by rw [List.length_take]; exact Nat.min_eq_left hfit.2) hfit.1, ?_, rfl, rfl⟩
      rw [if_pos rfl, hoffb]
      exact written_push hw h.2.2.2.2.2.2.1 _
    · exact Option.noConfusion hp

/-- A run of calls that has a result keeps the invariant, the capacity and the
element size. -/
theorem sound_run {w : Nat} (calls : List queue_call) :
    ∀ (q q1 : circ_queue) (ws ws1 : List Nat), sound w q → window_written q ws →
      run w q ws calls = some (q1, ws1) →
      sound w q1 ∧ window_written q1 ws1 ∧ q1.capacity = q.capacity ∧
        q1.element_size = q.element_size := by
  induction calls with
  | nil =>
    intro q q1 ws ws1 h hw hr
    rw [run] at hr
    have := Option.some.inj hr
    simp only [Prod.mk.injEq] at this
    obtain ⟨rfl, rfl⟩ := this
    exact ⟨h, hw, rfl, rfl⟩
  | cons c calls ih =>
    intro q q1 ws ws1 h hw hr
    cases c with
    | push E flag =>
      rw [run] at hr
      split at hr
      · exact Option.noConfusion hr
      · next r q0 hp =>
        obtain ⟨g1, g2, g3, g4⟩ := step_push h hw hp
        obtain ⟨k1, k2, k3, k4⟩ := ih _ _ _ _ g1 g2 hr
        exact ⟨k1, k2, by rw [k3, g3], by rw [k4, g4]⟩
    | pop element =>
      rw [run] at hr
      split at hr
      · exact Option.noConfusion hr
      · next r q0 e0 hp =>
        obtain ⟨g1, g2, g3, g4⟩ := step_pop h hw hp
        obtain ⟨k1, k2, k3, k4⟩ := ih _ _ _ _ g1 g2 hr
        exact ⟨k1, k2, by rw [k3, g3], by rw [k4, g4]⟩

theorem sound_create {w : Nat} {malloc_queue malloc_data : Nat → Option (List uint8_t)}
    {capacity element_size : Nat} {q : circ_queue}
    (hmalloc : ∀ n buf, malloc_data n = some buf → buf.length = n)
    (hsize : capacity < 2 ^ w)
    (hq : (circ_queue_create w malloc_queue malloc_data capacity element_size).1 = some q) :
    sound w q ∧ window_written q [] ∧ q.capacity = capacity ∧
      q.element_size = element_size := by
  unfold circ_queue_create at hq
  split at hq
  · exact Option.noConfusion hq
  · next hz =>
    split at hq
    · exact Option.noConfusion hq
    · simp only at hq
      split at hq
      · exact Option.noConfusion hq
      · next data hd =>
        have hlen := hmalloc _ _ hd
        have hlt : size_mul w capacity element_size < 2 ^ w :=
          Nat.mod_lt _ (Nat.two_pow_pos w)
        have hq1 := Option.some.inj hq
        subst hq1
        have hc : 0 < capacity := by omega
        have he : 0 < element_size := by omega
        refine ⟨⟨hc, he, hsize, hc, hc, Nat.zero_le _, ?_, ?_, ?_, ?_⟩, ?_, rfl, rfl⟩
        · show 0 = (0 + 0) % capacity
          simp
        · show data.length < 2 ^ w
          omega
        · show element_size * 0 ≤ data.length
          omega
        · intro i hi
          exact absurd hi (Nat.not_lt_zero _)
        · intro i hi
          exact absurd hi (Nat.not_lt_zero _)

theorem zero_heap_length (n : Nat) (buf : List uint8_t) (h : zero_heap n = some buf) :
    buf.length = n := by
  have := Option.some.inj h
  rw [← this, List.length_replicate]

/-- What every queue reached from `circ_queue_create` by a run of calls
satisfies. -/
theorem sound_reached {w : Nat} {malloc_queue malloc_data : Nat → Option (List uint8_t)}
    {capacity element_size : Nat} {q0 q : circ_queue} {ws : List Nat} {calls : List queue_call}
    (hmalloc : ∀ n buf, malloc_data n = some buf → buf.length = n)
    (hsize : capacity < 2 ^ w)
    (hq : (circ_queue_create w malloc_queue malloc_data capacity element_size).1 = some q0)
    (hrun : run w q0 [] calls = some (q, ws)) :
    sound w q ∧ window_written q ws ∧ q.capacity = capacity ∧
      q.element_size = element_size := by
  obtain ⟨h1, h2, h3, h4⟩ := sound_create hmalloc hsize hq
  obtain ⟨k1, k2, k3, k4⟩ := sound_run calls q0 q [] ws h1 h2 hrun
  exact ⟨k1, k2, by rw [k3, h3], by rw [k4, h4]⟩

theorem front_sound {w : Nat} {q : circ_queue} (h : sound w q) (hl : 0 < q.length) :
    circ_queue_front w q = some (q.element_size * q.front) := by
  unfold circ_queue_front
  rw [if_neg (by rw [is_empty_ne_zero]; omega), (sound_front_offset h hl).1]

theorem back_sound {w : Nat} {q : circ_queue} (h : sound w q) (hl : 0 < q.length) :
    ∃ i, i < q.length ∧
      circ_queue_back w q = some (q.element_size * ((q.front + i) % q.capacity)) := by
  have hoff := fun i (hi : i < q.length) => (sound_offset h hi).1
  obtain ⟨hc, he, hcap, hf, hb, hlen, hbk, hd, hnext, hwin⟩ := h
  unfold circ_queue_back
  rw [if_neg (by rw [is_empty_ne_zero]; omega), size_sub_add_one (by omega) (by omega)]
  by_cases hT : q.front + q.length - 1 < 2 ^ w
  · refine ⟨q.length - 1, by omega, ?_⟩
    rw [Nat.mod_eq_of_lt hT, show q.front + q.length - 1 = q.front + (q.length - 1) by omega,
      hoff _ (by omega)]
  · refine ⟨q.front + q.length - 1 - 2 ^ w + q.capacity - q.front, by omega, ?_⟩
    have e1 : (q.front + q.length - 1) % 2 ^ w = q.front + q.length - 1 - 2 ^ w := by
      rw [mod_wrap (by omega), if_neg hT]
    have e2 : (q.front + q.length - 1 - 2 ^ w) % q.capacity =
        q.front + q.length - 1 - 2 ^ w := Nat.mod_eq_of_lt (by omega)
    have e3 : (q.front + (q.front + q.length - 1 - 2 ^ w + q.capacity - q.front)) % q.capacity =
        q.front + q.length - 1 - 2 ^ w := by
      rw [mod_wrap (by omega)]
      split <;> omega
    have e4 := hoff (q.front + q.length - 1 - 2 ^ w + q.capacity - q.front) (by omega)
    rw [e3] at e4
    rw [e1, e2, e3, e4]

/-! ## The claims about the views, the creation and the overwrite path -/

/-- C11. `circ_queue_front` and `circ_queue_back` return `NULL` exactly when
the queue is empty, and on a valid queue with one element both return the
offset of slot `front`.  (Neither function assigns to the queue: each returns
a pointer only, the queue is as it was.) -/
theorem front_back_views (w : Nat) (q : circ_queue) :
    (circ_queue_front w q = none ↔ q.length = 0) ∧
    (circ_queue_back w q = none ↔ q.length = 0) ∧
    (valid w q → q.length = 1 →
      ∃ p, circ_queue_front w q = some p ∧ circ_queue_back w q = some p ∧
        p = q.element_size * q.front ∧ view q p = slot q q.front) := by
  refine ⟨?_, ?_, ?_⟩
  · unfold circ_queue_front
    by_cases h : q.length = 0
    · rw [if_pos ((is_empty_ne_zero q).2 h)]
      exact ⟨fun _ => h, fun _ => rfl⟩
    · rw [if_neg (by rw [is_empty_ne_zero]; exact h)]
      exact ⟨fun hh => Option.noConfusion hh, fun hh => absurd hh h⟩
  · unfold circ_queue_back
    by_cases h : q.length = 0
    · rw [if_pos ((is_empty_ne_zero q).2 h)]
      exact ⟨fun _ => h, fun _ => rfl⟩
    · rw [if_neg (by rw [is_empty_ne_zero]; exact h)]
      exact ⟨fun hh => Option.noConfusion hh, fun hh => absurd hh h⟩
  · intro hv h1
    have hcap := valid_capacity_lt hv
    have hf := hv.2.2.1
    refine ⟨_, front_valid hv (by omega), ?_, rfl, rfl⟩
    rw [back_valid_of_le hv (by omega) (by omega), h1]
    show some (q.element_size * ((q.front + 0) % q.capacity)) = _
    rw [Nat.add_zero, Nat.mod_eq_of_lt hf]

theorem front_back_views_witness :
    valid 64 single_queue ∧ single_queue.length = 1 ∧
    ∃ p, circ_queue_front 64 single_queue = some p ∧ circ_queue_back 64 single_queue = some p ∧
      p = single_queue.element_size * single_queue.front ∧
      view single_queue p = slot single_queue single_queue.front :=
  ⟨by decide, rfl, (front_back_views 64 single_queue).2.2 (by decide) rfl⟩

/-- C13. `circ_queue_create` returns `NULL` whenever the capacity or the
element size is 0, whatever the other argument, and makes no call to the
allocator. -/
theorem create_rejects_zero (w : Nat) (malloc_queue malloc_data : Nat → Option (List uint8_t))
    (capacity element_size : Nat) (h : capacity = 0 ∨ element_size = 0) :
    circ_queue_create w malloc_queue malloc_data capacity element_size = (none, []) := by
  unfold circ_queue_create
  rw [if_pos h]

theorem create_rejects_zero_witness :
    circ_queue_create 64 zero_heap zero_heap 0 4 = (none, []) ∧
    circ_queue_create 64 zero_heap zero_heap 1000 0 = (none, []) :=
  ⟨create_rejects_zero 64 zero_heap zero_heap 0 4 (Or.inl rfl),
   create_rejects_zero 64 zero_heap zero_heap 1000 0 (Or.inr rfl)⟩

/-- C14. When the capacity and the element size are non-zero and both
allocations succeed, `circ_queue_create` returns a queue with length 0,
`front = back = 0` and the capacity and element size of the arguments; on it
`circ_queue_is_empty` is non-zero and `circ_queue_is_full` is 0. -/
theorem create_success (w : Nat) (malloc_queue malloc_data : Nat → Option (List uint8_t))
    (capacity element_size : Nat) (block data : List uint8_t)
    (hc : 0 < capacity) (he : 0 < element_size)
    (h1 : malloc_queue (sizeof_circ_queue_t w) = some block)
    (h2 : malloc_data (size_mul w capacity element_size) = some data) :
    ∃ q, (circ_queue_create w malloc_queue malloc_data capacity element_size).1 = some q ∧
      q.length = 0 ∧ q.front = 0 ∧ q.back = 0 ∧ q.capacity = capacity ∧
      q.element_size = element_size ∧ q.data = data ∧
      circ_queue_is_empty q ≠ 0 ∧ circ_queue_is_full q = 0 := by
  unfold circ_queue_create
  rw [if_neg (by omega), h1]
  simp only [h2]
  refine ⟨_, rfl, rfl, rfl, rfl, rfl, rfl, rfl, ?_, ?_⟩
  · rw [is_empty_ne_zero]
  · unfold circ_queue_is_full
    rw [if_neg]
    show ¬ 0 = capacity
    omega

theorem create_success_witness :
    ∃ q, (circ_queue_create 64 zero_heap zero_heap 1000 4).1 = some q ∧
      q.length = 0 ∧ q.front = 0 ∧ q.back = 0 ∧ q.capacity = 1000 ∧
      q.element_size = 4 ∧ q.data = List.replicate 4000 0 ∧
      circ_queue_is_empty q ≠ 0 ∧ circ_queue_is_full q = 0 :=
  create_success 64 zero_heap zero_heap 1000 4 (List.replicate 56 0) (List.replicate 4000 0)
    (by decide) (by decide) rfl rfl

/-- C16. On a valid full queue, `circ_queue_push` with a non-zero flag returns
the same value and leaves the same queue as `circ_queue_pop(q, NULL)` followed
by `circ_queue_push(q, E, 0)`; that pop returns 0, it does not underflow. -/
theorem evict_is_pop_then_push (w : Nat) (q : circ_queue) (E : List uint8_t) (flag : Int)
    (hv : valid w q) (hfull : q.length = q.capacity) (hE : q.element_size ≤ E.length)
    (hflag : flag ≠ 0) :
    ∃ q2, circ_queue_push w q E flag = some (0, q2) ∧
      pop_then_push w q E = some (0, 0, q2) := by
  have hpos : 0 < q.length := by have := hv.1; omega
  refine ⟨_, push_full_evict hv hfull E hE flag hflag, ?_⟩
  unfold pop_then_push
  rw [pop_null hv hpos]
  simp only
  rw [push_not_full (valid_pop hv hpos) (by show q.length - 1 < q.capacity; omega) E hE 0]
  rfl

theorem evict_is_pop_then_push_witness :
    valid 64 full_queue ∧
    ∃ q2, circ_queue_push 64 full_queue [7, 8] 1 = some (0, q2) ∧
      pop_then_push 64 full_queue [7, 8] = some (0, 0, q2) :=
  ⟨by decide, evict_is_pop_then_push 64 full_queue [7, 8] 1 (by decide) rfl (by decide)
    (by decide)⟩

/-! ## The claims about reachable queues and about iteration -/

theorem views_of_visits (q : circ_queue) :
    ((List.range q.length).map
        (fun i => (i, q.element_size * ((q.front + i) % q.capacity)))).map
      (fun v => view q v.2) = contents q := by
  rw [List.map_map]
  rfl

/-- C12. In every queue reached from `circ_queue_create` by a run of pushes and
pops, `circ_queue_for_each` (given more fuel than `length`) ends, its body runs
`length` times, with `loop_idx` = 0, 1, ... and `element` at slot
`(front + loop_idx) mod capacity`; the elements it views are the contents,
oldest first, and they are what `length` successive pops deliver. -/
theorem for_each_visits_contents (w : Nat)
    (malloc_queue malloc_data : Nat → Option (List uint8_t)) (capacity element_size : Nat)
    (q0 q : circ_queue) (ws : List Nat) (calls : List queue_call) (out : List uint8_t)
    (fuel : Nat)
    (hmalloc : ∀ n buf, malloc_data n = some buf → buf.length = n)
    (hsize : capacity < 2 ^ w)
    (hq : (circ_queue_create w malloc_queue malloc_data capacity element_size).1 = some q0)
    (hrun : run w q0 [] calls = some (q, ws))
    (hfuel : q.length < fuel) (hout : out.length = q.element_size) :
    ∃ q1 visited q2, circ_queue_for_each w fuel q = some (q1, visited) ∧
      visited.length = q.length ∧
      visited = (List.range q.length).map
        (fun i => (i, q.element_size * ((q.front + i) % q.capacity))) ∧
      visited.map (fun v => view q v.2) = contents q ∧
      pop_n w out q q.length = some (visited.map (fun v => ((0 : Int), view q v.2)), q2) ∧
      q2.length = 0 := by
  obtain ⟨hs, -, -, -⟩ := sound_reached hmalloc hsize hq hrun
  obtain ⟨q2, h1, h2⟩ := pop_n_sound out q.length q hs (Nat.le_refl _) hout
  refine ⟨_, _, q2, for_each_spec hs hfuel, by simp, rfl, views_of_visits q, ?_, by omega⟩
  rw [h1, List.take_of_length_le (by rw [length_contents]), ← views_of_visits q, List.map_map,
    List.map_map, List.map_map]
  rfl

theorem for_each_visits_contents_witness :
    ∃ q1 visited q2, circ_queue_for_each 64 6 sample_queue = some (q1, visited) ∧
      visited.length = sample_queue.length ∧
      visited = (List.range sample_queue.length).map
        (fun i => (i, sample_queue.element_size *
          ((sample_queue.front + i) % sample_queue.capacity))) ∧
      visited.map (fun v => view sample_queue v.2) = contents sample_queue ∧
      pop_n 64 [0, 0, 0, 0] sample_queue sample_queue.length =
        some (visited.map (fun v => ((0 : Int), view sample_queue v.2)), q2) ∧
      q2.length = 0 :=
  for_each_visits_contents 64 zero_heap zero_heap 5 4 five_ints sample_queue
    [8, 4, 0, 16, 12, 8, 4, 0] sample_calls [0, 0, 0, 0] 6 zero_heap_length (by decide)
    (by decide) (by decide) (by decide) rfl

/-- C15. State invariant: in every queue reached from a successful
`circ_queue_create(c, e)` by a run of pushes (either flag) and pops, whether
they return 0 or -1, the capacity is `c`, the element size is `e`, `front`
and `back` are below the capacity, `length` is at most the capacity, `length`
is `(back - front) mod capacity` when it is below the capacity, and
`front = back` when it equals the capacity. -/
theorem state_invariant (w : Nat)
    (malloc_queue malloc_data : Nat → Option (List uint8_t)) (capacity element_size : Nat)
    (q0 q : circ_queue) (ws : List Nat) (calls : List queue_call)
    (hmalloc : ∀ n buf, malloc_data n = some buf → buf.length = n)
    (hsize : capacity < 2 ^ w)
    (hq : (circ_queue_create w malloc_queue malloc_data capacity element_size).1 = some q0)
    (hrun : run w q0 [] calls = some (q, ws)) :
    q.capacity = capacity ∧ q.element_size = element_size ∧
      q.front < q.capacity ∧ q.back < q.capacity ∧ q.length ≤ q.capacity ∧
      (q.length < q.capacity →
        (q.length : Int) = ((q.back : Int) - (q.front : Int)) % (q.capacity : Int)) ∧
      (q.length = q.capacity → q.front = q.back) := by
  obtain ⟨hs, -, h3, h4⟩ := sound_reached hmalloc hsize hq hrun
  obtain ⟨hc, he, hcap, hf, hb, hlen, hbk, hd, hnext, hwin⟩ := hs
  have := (index_relation_iff hf hb hlen).1 hbk
  exact ⟨h3, h4, hf, hb, hlen, this.1, this.2⟩

theorem state_invariant_witness :
    sample_queue.capacity = 5 ∧ sample_queue.element_size = 4 ∧
      sample_queue.front < sample_queue.capacity ∧ sample_queue.back < sample_queue.capacity ∧
      sample_queue.length ≤ sample_queue.capacity ∧
      (sample_queue.length < sample_queue.capacity →
        (sample_queue.length : Int) =
          ((sample_queue.back : Int) - (sample_queue.front : Int)) %
            (sample_queue.capacity : Int)) ∧
      (sample_queue.length = sample_queue.capacity → sample_queue.front = sample_queue.back) :=
  state_invariant 64 zero_heap zero_heap 5 4 five_ints sample_queue
    [8, 4, 0, 16, 12, 8, 4, 0] sample_calls zero_heap_length (by decide) (by decide) (by decide)

/-- The outcomes of `circ_queue_push` on a queue reached by calls: refused, or
copied into slot `back` of the queue itself (not full) or of the queue after
the eviction (full, flag set). -/
theorem push_cases {w : Nat} {q q1 : circ_queue} {E : List uint8_t} {flag r : Int}
    (h : sound w q) (hp : circ_queue_push w q E flag = some (r, q1)) :
    (r = -1 ∧ q1 = q ∧ q.length = q.capacity ∧ flag = 0) ∨
    (r = 0 ∧ q.length < q.capacity ∧ q1 = after_push q (E.take q.element_size) ∧
      q.element_size ≤ E.length ∧
      q.element_size * q.back + q.element_size ≤ q.data.length) ∨
    (r = 0 ∧ q.length = q.capacity ∧ flag ≠ 0 ∧
      q1 = after_push (after_pop q) (E.take q.element_size) ∧
      q.element_size ≤ E.length ∧
      q.element_size * q.back + q.element_size ≤ q.data.length) := by
  have hlen := h.2.2.2.2.2.1
  have hc := h.1
  unfold circ_queue_push at hp
  by_cases hfull : q.length = q.capacity
  · rw [if_pos ((is_full_ne_zero q).2 hfull)] at hp
    by_cases hflag : flag = 0
    · rw [if_pos hflag] at hp
      have := Option.some.inj hp
      simp only [Prod.mk.injEq] at this
      exact Or.inl ⟨this.1.symm, this.2.symm, hfull, hflag⟩
    · have hpos : 0 < q.length := by omega
      rw [if_neg hflag, pop_null_sound h hpos] at hp
      simp only at hp
      rw [push_copy_sound (sound_pop h hpos) (by show q.length - 1 < q.capacity; omega)] at hp
      split at hp
      · next hfit =>
        have := Option.some.inj hp
        simp only [Prod.mk.injEq] at this
        exact Or.inr (Or.inr ⟨this.1.symm, hfull, hflag, this.2.symm, hfit.2, hfit.1⟩)
      · exact Option.noConfusion hp
  · rw [if_neg (by rw [is_full_ne_zero]; exact hfull)] at hp
    have hlt : q.length < q.capacity := by omega
    rw [push_copy_sound h hlt] at hp
    split at hp
    · next hfit =>
      have := Option.some.inj hp
      simp only [Prod.mk.injEq] at this
      exact Or.inr (Or.inl ⟨this.1.symm, hlt, this.2.symm, hfit.2, hfit.1⟩)
    · exact Option.noConfusion hp

/-- C17 (as amended). On a valid queue a `circ_queue_push` that returns 0 sets
`back` to `(back + 1) mod capacity`, stores the element in the slot at the old
`back` and leaves the capacity, the element size and every other slot
unchanged.  When the queue was not full, `front` is unchanged and `length`
grows by 1; when it was full (the flag is then non-zero), `front` becomes
`(front + 1) mod capacity` and `length` stays equal to the capacity. -/
theorem push_frame (w : Nat) (q q1 : circ_queue) (E : List uint8_t) (flag : Int)
    (hv : valid w q) (hp : circ_queue_push w q E flag = some (0, q1)) :
    q1.back = (q.back + 1) % q.capacity ∧
      q1.capacity = q.capacity ∧ q1.element_size = q.element_size ∧
      q1.data = store q.data (q.element_size * q.back) (E.take q.element_size) ∧
      slot q1 q.back = E.take q.element_size ∧
      (∀ j, j ≠ q.back → slot q1 j = slot q j) ∧
      (q.length < q.capacity → q1.front = q.front ∧ q1.length = q.length + 1) ∧
      (q.length = q.capacity →
        flag ≠ 0 ∧ q1.front = (q.front + 1) % q.capacity ∧ q1.length = q.length) := by
  have hpos : q.length = q.capacity → q.length - 1 + 1 = q.length := by
    intro hfull; have := hv.1; omega
  have key : ∀ v : circ_queue, v.data = q.data → v.element_size = q.element_size →
      v.back = q.back → q.element_size ≤ E.length →
      slot (after_push v (E.take q.element_size)) q.back = E.take q.element_size ∧
      ∀ j, j ≠ q.back → slot (after_push v (E.take q.element_size)) j = slot q j := by
    intro v hd he hb hE
    have hl : (E.take q.element_size).length = q.element_size := by
      rw [List.length_take]; exact Nat.min_eq_left hE
    have hst := fun j => slot_store hv (E.take q.element_size) hl q.back j hv.2.2.2.1
      (after_push v (E.take q.element_size))
      (by show store v.data (v.element_size * v.back) _ = _; rw [hd, he, hb]) he
    exact ⟨by rw [hst, if_pos rfl], fun j hj => by rw [hst, if_neg hj]⟩
  rcases push_cases (sound_of_valid hv) hp with ⟨hr, -⟩ | ⟨-, hlt, rfl, hE, -⟩ |
      ⟨-, hfull, hflag, rfl, hE, -⟩
  · exact absurd hr (by decide)
  · obtain ⟨k1, k2⟩ := key q rfl rfl rfl hE
    exact ⟨rfl, rfl, rfl, rfl, k1, k2, fun _ => ⟨rfl, rfl⟩, fun hf => absurd hf (by omega)⟩
  · obtain ⟨k1, k2⟩ := key (after_pop q) rfl rfl rfl hE
    exact ⟨rfl, rfl, rfl, rfl, k1, k2, fun hf => absurd hfull (by omega),
      fun _ => ⟨hflag, rfl, hpos hfull⟩⟩

theorem push_frame_witness :
    valid 64 full_queue ∧
    circ_queue_push 64 full_queue [7, 8] 1 =
      some (0, after_push (after_pop full_queue) [7, 8]) ∧
    (after_push (after_pop full_queue) [7, 8]).back =
        (full_queue.back + 1) % full_queue.capacity ∧
      (after_push (after_pop full_queue) [7, 8]).capacity = full_queue.capacity ∧
      (after_push (after_pop full_queue) [7, 8]).element_size = full_queue.element_size ∧
      (after_push (after_pop full_queue) [7, 8]).data =
        store full_queue.data (full_queue.element_size * full_queue.back)
          (List.take full_queue.element_size [7, 8]) ∧
      slot (after_push (after_pop full_queue) [7, 8]) full_queue.back =
        List.take full_queue.element_size [7, 8] ∧
      (∀ j, j ≠ full_queue.back →
        slot (after_push (after_pop full_queue) [7, 8]) j = slot full_queue j) ∧
      (full_queue.length < full_queue.capacity →
        (after_push (after_pop full_queue) [7, 8]).front = full_queue.front ∧
        (after_push (after_pop full_queue) [7, 8]).length = full_queue.length + 1) ∧
      (full_queue.length = full_queue.capacity →
        (1 : Int) ≠ 0 ∧
        (after_push (after_pop full_queue) [7, 8]).front =
          (full_queue.front + 1) % full_queue.capacity ∧
        (after_push (after_pop full_queue) [7, 8]).length = full_queue.length) :=
  ⟨by decide, by decide,
   push_frame 64 full_queue (after_push (after_pop full_queue) [7, 8]) [7, 8] 1 (by decide)
    (by decide)⟩

/-- C17 (as stated) fails on a full queue with the flag set: the push of
`[7, 8]` returns 0, but `front` goes from 1 to 2 and `length` stays 3. -/
theorem push_frame_full_queue :
    valid 64 full_queue ∧
    ∃ q1, circ_queue_push 64 full_queue [7, 8] 1 = some (0, q1) ∧
      full_queue.front = 1 ∧ q1.front = 2 ∧
      full_queue.length = 3 ∧ q1.length = 3 ∧
      q1.front ≠ full_queue.front ∧ q1.length ≠ full_queue.length + 1 :=
  ⟨by decide, ⟨2, 2, 0, 3, 3, 2, [5, 6, 7, 8, 3, 4]⟩, by decide, rfl, rfl, rfl, rfl,
    by decide, by decide⟩

theorem window_slot_ok {w : Nat} {q : circ_queue} {ws : List Nat} (hs : sound w q)
    (hw : window_written q ws) (i : Nat) (hi : i < q.length) :
    in_window q (q.element_size * ((q.front + i) % q.capacity)) ∧
      q.element_size * ((q.front + i) % q.capacity) ∈ ws ∧
      q.element_size * ((q.front + i) % q.capacity) + q.element_size ≤ q.data.length :=
  ⟨⟨i, hi, rfl⟩, hw i hi, (sound_offset hs hi).2⟩

/-- C18. No read before write: in every queue reached from `circ_queue_create`
by a run of pushes and pops, the pointer `circ_queue_front` returns, the
pointer `circ_queue_back` returns, the place `circ_queue_pop` copies from and
every pointer `circ_queue_for_each` hands to its body is the start of a slot
of the window `[front, front + length)`, was the destination of an earlier
push of the run, and has `element_size` bytes of the buffer after it. -/
theorem no_read_before_write (w : Nat)
    (malloc_queue malloc_data : Nat → Option (List uint8_t)) (capacity element_size : Nat)
    (q0 q : circ_queue) (ws : List Nat) (calls : List queue_call) (fuel : Nat)
    (hmalloc : ∀ n buf, malloc_data n = some buf → buf.length = n)
    (hsize : capacity < 2 ^ w)
    (hq : (circ_queue_create w malloc_queue malloc_data capacity element_size).1 = some q0)
    (hrun : run w q0 [] calls = some (q, ws)) (hfuel : q.length < fuel) :
    (∀ p, circ_queue_front w q = some p →
      in_window q p ∧ p ∈ ws ∧ p + q.element_size ≤ q.data.length) ∧
    (∀ p, circ_queue_back w q = some p →
      in_window q p ∧ p ∈ ws ∧ p + q.element_size ≤ q.data.length) ∧
    (∀ element p, pop_source w q element = some p →
      in_window q p ∧ p ∈ ws ∧ p + q.element_size ≤ q.data.length) ∧
    (∃ q1 visited, circ_queue_for_each w fuel q = some (q1, visited) ∧
      ∀ v ∈ visited, in_window q v.2 ∧ v.2 ∈ ws ∧ v.2 + q.element_size ≤ q.data.length) := by
  obtain ⟨hs, hw, -, -⟩ := sound_reached hmalloc hsize hq hrun
  have hf := hs.2.2.2.1
  have hzero : ∀ hl : 0 < q.length,
      q.element_size * q.front = q.element_size * ((q.front + 0) % q.capacity) := by
    intro _
    rw [Nat.add_zero, Nat.mod_eq_of_lt hf]
  refine ⟨?_, ?_, ?_, ?_⟩
  · intro p hp
    by_cases hl : q.length = 0
    · unfold circ_queue_front at hp
      rw [if_pos ((is_empty_ne_zero q).2 hl)] at hp
      exact Option.noConfusion hp
    · have hpos : 0 < q.length := Nat.pos_of_ne_zero hl
      rw [front_sound hs hpos] at hp
      rw [← Option.some.inj hp, hzero hpos]
      exact window_slot_ok hs hw 0 hpos
  · intro p hp
    by_cases hl : q.length = 0
    · unfold circ_queue_back at hp
      rw [if_pos ((is_empty_ne_zero q).2 hl)] at hp
      exact Option.noConfusion hp
    · have hpos : 0 < q.length := Nat.pos_of_ne_zero hl
      obtain ⟨i, hi, hb⟩ := back_sound hs hpos
      rw [hb] at hp
      rw [← Option.some.inj hp]
      exact window_slot_ok hs hw i hi
  · intro element p hp
    unfold pop_source at hp
    by_cases hl : q.length = 0
    · rw [if_pos ((is_empty_ne_zero q).2 hl)] at hp
      exact Option.noConfusion hp
    · have hpos : 0 < q.length := Nat.pos_of_ne_zero hl
      rw [if_neg (by rw [is_empty_ne_zero]; exact hl)] at hp
      cases element with
      | none => exact Option.noConfusion hp
      | some buf =>
        simp only at hp
        rw [(sound_front_offset hs hpos).1] at hp
        rw [← Option.some.inj hp, hzero hpos]
        exact window_slot_ok hs hw 0 hpos
  · refine ⟨_, _, for_each_spec hs hfuel, ?_⟩
    intro v hv
    rw [List.mem_map] at hv
    obtain ⟨i, hi, rfl⟩ := hv
    exact window_slot_ok hs hw i (List.mem_range.1 hi)

theorem no_read_before_write_witness :
    (∀ p, circ_queue_front 64 sample_queue = some p →
      in_window sample_queue p ∧ p ∈ [8, 4, 0, 16, 12, 8, 4, 0] ∧
        p + sample_queue.element_size ≤ sample_queue.data.length) ∧
    (∀ p, circ_queue_back 64 sample_queue = some p →
      in_window sample_queue p ∧ p ∈ [8, 4, 0, 16, 12, 8, 4, 0] ∧
        p + sample_queue.element_size ≤ sample_queue.data.length) ∧
    (∀ element p, pop_source 64 sample_queue element = some p →
      in_window sample_queue p ∧ p ∈ [8, 4, 0, 16, 12, 8, 4, 0] ∧
        p + sample_queue.element_size ≤ sample_queue.data.length) ∧
    (∃ q1 visited, circ_queue_for_each 64 6 sample_queue = some (q1, visited) ∧
      ∀ v ∈ visited, in_window sample_queue v.2 ∧ v.2 ∈ [8, 4, 0, 16, 12, 8, 4, 0] ∧
        v.2 + sample_queue.element_size ≤ sample_queue.data.length) :=
  no_read_before_write 64 zero_heap zero_heap 5 4 five_ints sample_queue
    [8, 4, 0, 16, 12, 8, 4, 0] sample_calls 6 zero_heap_length (by decide) (by decide)
    (by decide) (by decide)

theorem sound_iterator {w : Nat} {q : circ_queue} (h : sound w q) (it : Nat) :
    sound w { q with iterator := it } := h

/-- C19. Iteration is restartable and leaves the buffer alone: on a valid
queue, whatever `iterator` held before, a complete `circ_queue_for_each`
(given more fuel than `length`) leaves `front`, `back`, `length`, the capacity,
the element size and the data buffer unchanged; the sequence it visits is the
same for every prior value of `iterator`, and a second run right after the
first visits the same sequence again. -/
theorem for_each_restartable (w : Nat) (q : circ_queue) (it fuel : Nat)
    (hv : valid w q) (hfuel : q.length < fuel) :
    ∃ q1 visited, circ_queue_for_each w fuel { q with iterator := it } = some (q1, visited) ∧
      q1.front = q.front ∧ q1.back = q.back ∧ q1.length = q.length ∧
      q1.capacity = q.capacity ∧ q1.element_size = q.element_size ∧ q1.data = q.data ∧
      (∀ it2, ∃ q2, circ_queue_for_each w fuel { q with iterator := it2 } =
        some (q2, visited)) ∧
      (∃ q3, circ_queue_for_each w fuel q1 = some (q3, visited) ∧
        q3.front = q.front ∧ q3.back = q.back ∧ q3.length = q.length ∧
        q3.capacity = q.capacity ∧ q3.element_size = q.element_size ∧ q3.data = q.data) := by
  have hs := sound_of_valid hv
  have h1 := for_each_spec (sound_iterator hs it) hfuel
  refine ⟨_, _, h1, rfl, rfl, rfl, rfl, rfl, rfl, ?_, ?_⟩
  · intro it2
    exact ⟨_, for_each_spec (sound_iterator hs it2) hfuel⟩
  · exact ⟨_, for_each_spec (sound_iterator hs ((q.front + q.length) % q.capacity)) hfuel,
      rfl, rfl, rfl, rfl, rfl, rfl⟩

theorem for_each_restartable_witness :
    valid 64 full_queue ∧
    ∃ q1 visited, circ_queue_for_each 64 4 { full_queue with iterator := 77 } =
        some (q1, visited) ∧
      q1.front = full_queue.front ∧ q1.back = full_queue.back ∧
      q1.length = full_queue.length ∧ q1.capacity = full_queue.capacity ∧
      q1.element_size = full_queue.element_size ∧ q1.data = full_queue.data ∧
      (∀ it2, ∃ q2, circ_queue_for_each 64 4 { full_queue with iterator := it2 } =
        some (q2, visited)) ∧
      (∃ q3, circ_queue_for_each 64 4 q1 = some (q3, visited) ∧
        q3.front = full_queue.front ∧ q3.back = full_queue.back ∧
        q3.length = full_queue.length ∧ q3.capacity = full_queue.capacity ∧
        q3.element_size = full_queue.element_size ∧ q3.data = full_queue.data) :=
  ⟨by decide, for_each_restartable 64 full_queue 77 4 (by decide) (by decide)⟩

/-! ## The size of the data buffer -/

/-- The allocator calls of a successful `circ_queue_create`: the second
requests `capacity * element_size` reduced modulo `2 ^ w`, which is the
product itself exactly when the product is below `2 ^ w`; every slot then
lies inside a buffer of that size. -/
theorem create_request (w : Nat) (malloc_queue malloc_data : Nat → Option (List uint8_t))
    (capacity element_size : Nat) (q : circ_queue)
    (hq : (circ_queue_create w malloc_queue malloc_data capacity element_size).1 = some q) :
    (circ_queue_create w malloc_queue malloc_data capacity element_size).2 =
        [heap_call.malloc (sizeof_circ_queue_t w),
          heap_call.malloc (capacity * element_size % 2 ^ w)] ∧
      (capacity * element_size % 2 ^ w = capacity * element_size ↔
        capacity * element_size < 2 ^ w) ∧
      (capacity * element_size < 2 ^ w → ∀ i, i < capacity →
        element_size * i + element_size ≤ capacity * element_size % 2 ^ w) := by
  refine ⟨?_, ⟨fun h => by rw [← h]; exact Nat.mod_lt _ (Nat.two_pow_pos w),
    Nat.mod_eq_of_lt⟩, fun hfit i hi => by rw [Nat.mod_eq_of_lt hfit]; exact slot_bound hi⟩
  unfold circ_queue_create at hq ⊢
  split
  · next hz => rw [if_pos hz] at hq; exact Option.noConfusion hq
  · next hz =>
    rw [if_neg hz] at hq
    split
    · next hm => rw [hm] at hq; exact Option.noConfusion hq
    · next blk hm =>
      rw [hm] at hq
      simp only at hq ⊢
      split
      · next hd => rw [hd] at hq; exact Option.noConfusion hq
      · rfl

theorem create_request_witness :
    (circ_queue_create 64 zero_heap zero_heap 5 4).2 =
        [heap_call.malloc (sizeof_circ_queue_t 64), heap_call.malloc (5 * 4 % 2 ^ 64)] ∧
      (5 * 4 % 2 ^ 64 = 5 * 4 ↔ 5 * 4 < 2 ^ 64) ∧
      (5 * 4 < 2 ^ 64 → ∀ i, i < 5 → 4 * i + 4 ≤ 5 * 4 % 2 ^ 64) :=
  create_request 64 zero_heap zero_heap 5 4 five_ints (by decide)

/-- C20 at a failing input (64-bit `size_t`): `circ_queue_create(2 ^ 63 + 1, 2)`
requests `(2 ^ 63 + 1) * 2 mod 2 ^ 64 = 2` bytes for the data buffer, not the
product `2 ^ 64 + 2`, and returns a queue of capacity `2 ^ 63 + 1` over it:
slot 1, at offset 2, lies outside the buffer. -/
theorem create_request_wraps :
    ∃ q, circ_queue_create 64 zero_heap zero_heap 9223372036854775809 2 =
        (some q, [heap_call.malloc 56, heap_call.malloc 2]) ∧
      9223372036854775809 * 2 = 18446744073709551618 ∧
      size_mul 64 9223372036854775809 2 = 2 ∧
      q.capacity = 9223372036854775809 ∧ q.element_size = 2 ∧ q.data.length = 2 ∧
      1 < q.capacity ∧ q.data.length < q.element_size * 1 + q.element_size :=
  ⟨⟨0, 0, 0, 0, 9223372036854775809, 2, [0, 0]⟩, by decide, by decide, by decide, by decide,
    by decide, by decide, by decide, by decide⟩

end CircQueue
